import Mathlib

/-! # Arch Linux HTTP source: acquire, verify, extract, normalise

A shallow embedding of `sources/archlinux-http.go` (`ArchLinuxHTTP.Run` and
`ArchLinuxHTTP.getLatestRelease`) and the properties proved about it.

* Go strings are Lean strings, read as sequences of Unicode code points.
* The collaborators the source calls (`htmlquery.LoadURL`, `htmlquery.FindOne`,
  `url.Parse`, `shared.DownloadHash`, `shared.VerifyFile`, `lxd.Unpack`,
  `os.TempDir`) are the fields of an environment `Env`; the general theorems
  hold for every environment.
* A run yields the returned error, the ordered list of the collaborator and
  file system calls it made, and the contents of the destination directory.
* The destination directory is a tree of named entries (files and
  directories).  `filepath.Join`, `path.Base`, `filepath.Match`,
  `filepath.Glob`, `os.Rename` and `os.RemoveAll` are given by their Go
  semantics on Unix, on that tree.  The tree holds the destination only; the
  staging directory lies outside it.  Symbolic links and input/output faults
  of the file system are not represented.
-/

set_option autoImplicit false

namespace ArchLinuxHTTP

/-! ## Strings -/

/-- Go `unicode.IsSpace`: the Latin-1 spaces `\t \n \v \f \r`, space, U+0085,
U+00A0, and the code points of the Unicode `White_Space` property above Latin-1. -/
def isSpace (c : Char) : Bool :=
  let n := c.toNat
  decide ((0x09 ≤ n ∧ n ≤ 0x0D) ∨ n = 0x20 ∨ n = 0x85 ∨ n = 0xA0 ∨ n = 0x1680 ∨
    (0x2000 ≤ n ∧ n ≤ 0x200A) ∨ n = 0x2028 ∨ n = 0x2029 ∨ n = 0x202F ∨
    n = 0x205F ∨ n = 0x3000)

/-- Characters left after removing the leading white space. -/
def trimLeft (cs : List Char) : List Char :=
  cs.dropWhile isSpace

/-- Characters left after removing the trailing white space. -/
def trimRight (cs : List Char) : List Char :=
  (cs.reverse.dropWhile isSpace).reverse

/-- Go `strings.TrimSpace`: the string without its leading and trailing white
space, as defined by `unicode.IsSpace`. -/
def TrimSpace (s : String) : String :=
  ⟨trimRight (trimLeft s.data)⟩

/-! ## Paths (`path/filepath`, Unix) -/

/-- The `/`-separated elements of a path; `"a//b"` has the elements `a`, the
empty element, and `b`. -/
def splitSep : List Char → List (List Char)
  | [] => [[]]
  | c :: cs =>
    if c = '/' then [] :: splitSep cs
    else
      match splitSep cs with
      | [] => [[c]]
      | s :: ss => (c :: s) :: ss

/-- One element of the lexical processing of `filepath.Clean`; `stack` holds
the elements kept so far, the last one first.  Empty and `.` elements are
dropped; `..` removes the element before it, is dropped at the root of a
rooted path, and is kept at the start of a relative path. -/
def cleanStep (rooted : Bool) (stack : List (List Char)) (elem : List Char) :
    List (List Char) :=
  if elem = [] ∨ elem = ['.'] then stack
  else if elem = ['.', '.'] then
    match stack with
    | [] => if rooted then [] else [elem]
    | top :: rest => if top = ['.', '.'] then elem :: stack else rest
  else elem :: stack

/-- The elements `filepath.Clean` keeps, in path order. -/
def cleanElems (rooted : Bool) (cs : List Char) : List (List Char) :=
  ((splitSep cs).foldl (cleanStep rooted) []).reverse

/-- The elements joined by single separators. -/
def joinElems : List (List Char) → List Char
  | [] => []
  | [e] => e
  | e :: es => e ++ '/' :: joinElems es

/-- Go `filepath.Clean` on characters: the shortest path name equivalent to
the argument by purely lexical processing; the empty path cleans to `.`. -/
def cleanChars (cs : List Char) : List Char :=
  match cs with
  | [] => ['.']
  | c :: _ =>
    let rooted : Bool := decide (c = '/')
    let body := joinElems (cleanElems rooted cs)
    if rooted then '/' :: body
    else if body = [] then ['.'] else body

/-- Go `filepath.Join` of two elements: empty elements are ignored, the rest
are joined by a separator and the result is cleaned; two empty elements give
the empty string. -/
def filepathJoin (a b : String) : String :=
  if a = "" then
    if b = "" then "" else ⟨cleanChars b.data⟩
  else if b = "" then ⟨cleanChars a.data⟩
  else ⟨cleanChars (a.data ++ '/' :: b.data)⟩

/-- Go `path.Base`: the last element of a path, after removing trailing
slashes; `.` for an empty path and `/` for a path of slashes only. -/
def pathBase (p : String) : String :=
  match p.data with
  | [] => "."
  | cs =>
    match (cs.reverse.dropWhile (fun c => c = '/')) with
    | [] => "/"
    | rs => ⟨(rs.takeWhile (fun c => c ≠ '/')).reverse⟩

/-! ## Shell patterns (`filepath.Match`, Unix) -/

/-- Go `getEsc`: one possibly escaped character of a character class and the
rest of the chunk; `none` is `ErrBadPattern` (an empty chunk, an unescaped `-`
or `]`, a dangling backslash, or nothing after the character). -/
def getEsc : List Char → Option (Char × List Char)
  | [] => none
  | c :: rest =>
    if c = '-' ∨ c = ']' then none
    else
      match (if c = '\\' then rest else c :: rest) with
      | [] => none
      | r :: nchunk => if nchunk = [] then none else some (r, nchunk)

/-- The range loop of a character class in Go `matchChunk`: reads ranges up to
the closing `]` (which ends the class only after at least one range) and
reports whether `r` lies in one of them, with the rest of the chunk; `none` is
`ErrBadPattern`.  Every round consumes a character, so `fuel` above the length
of the chunk is never used up. -/
def classLoop (r : Char) : Nat → List Char → Bool → Nat → Option (Bool × List Char)
  | 0, _, _, _ => none
  | fuel + 1, chunk, matched, nrange =>
    match chunk with
    | ']' :: rest =>
      if 0 < nrange then some (matched, rest) else none
    | _ =>
      match getEsc chunk with
      | none => none
      | some (lo, chunk1) =>
        match chunk1 with
        | '-' :: rest =>
          match getEsc rest with
          | none => none
          | some (hi, chunk2) =>
            classLoop r fuel chunk2 (matched || (decide (lo ≤ r) && decide (r ≤ hi)))
              (nrange + 1)
        | _ =>
          classLoop r fuel chunk1 (matched || (decide (lo ≤ r) && decide (r ≤ lo)))
            (nrange + 1)

/-- Go `matchChunk`: does `chunk` (literals, classes and `?`) match a beginning
of `s`?  The outer `none` is `ErrBadPattern`, `some none` is no match and
`some (some rest)` a match leaving `rest`.  Once the match has failed the
chunk is still read to the end to check that it is well formed, without
reading `s` further. -/
def matchChunk : Nat → List Char → List Char → Bool → Option (Option (List Char))
  | 0, _, _, _ => none
  | fuel + 1, chunk, s, failed0 =>
    match chunk with
    | [] => if failed0 then some none else some (some s)
    | c :: chunk1 =>
      let failed : Bool := failed0 || s.isEmpty
      if c = '[' then
        let r : Char := if failed then Char.ofNat 0 else s.headD (Char.ofNat 0)
        let s1 := if failed then s else s.tail
        let negated : Bool := decide (chunk1.head? = some '^')
        let chunk2 := if negated then chunk1.tail else chunk1
        match classLoop r (chunk2.length + 1) chunk2 false 0 with
        | none => none
        | some (matched, chunk3) =>
          matchChunk fuel chunk3 s1 (failed || (matched == negated))
      else if c = '?' then
        if failed then matchChunk fuel chunk1 s true
        else matchChunk fuel chunk1 s.tail (decide (s.head? = some '/'))
      else
        match (if c = '\\' then chunk1 else c :: chunk1) with
        | [] => none
        | x :: chunk2 =>
          if failed then matchChunk fuel chunk2 s true
          else matchChunk fuel chunk2 s.tail (decide (s.head? ≠ some x))

/-- The inner scan of Go `scanChunk`: the pattern up to the first `*` that is
outside a character class, and the pattern from that `*` on.  `skip` says that
the character at hand follows a backslash and is not looked at. -/
def scanSplit : Bool → Bool → List Char → List Char × List Char
  | _, _, [] => ([], [])
  | inrange, true, c :: rest =>
    let r := scanSplit inrange false rest
    (c :: r.1, r.2)
  | inrange, false, c :: rest =>
    if c = '\\' then
      let r := scanSplit inrange true rest
      (c :: r.1, r.2)
    else if c = '[' then
      let r := scanSplit true false rest
      (c :: r.1, r.2)
    else if c = ']' then
      let r := scanSplit false false rest
      (c :: r.1, r.2)
    else if c = '*' ∧ inrange = false then ([], c :: rest)
    else
      let r := scanSplit inrange false rest
      (c :: r.1, r.2)

/-- Go `scanChunk`: whether the segment starts with stars, its star-free chunk,
and the rest of the pattern. -/
def scanChunk (pattern : List Char) : Bool × List Char × List Char :=
  let p := pattern.dropWhile (fun c => c = '*')
  let r := scanSplit false false p
  (decide (pattern.head? = some '*'), r.1, r.2)

/-- Outcome of the star loop of Go `Match`. -/
inductive StarScan where
  | bad
  | noMatch
  | found (rest : List Char)

/-- The star loop of Go `Match`: tries the chunk after skipping one more
character of the name each round, never skipping a separator; when the chunk
is the last one a match must use up the name. -/
def starScan (chunk : List Char) (lastChunk : Bool) : List Char → StarScan
  | [] => StarScan.noMatch
  | c :: name1 =>
    if c = '/' then StarScan.noMatch
    else
      match matchChunk (chunk.length + 1) chunk name1 false with
      | none => StarScan.bad
      | some none => starScan chunk lastChunk name1
      | some (some t) =>
        if lastChunk && !t.isEmpty then starScan chunk lastChunk name1
        else StarScan.found t

/-- The main loop of Go `Match`; `none` is `ErrBadPattern`.  Every round
consumes a character of the pattern. -/
def matchLoop : Nat → List Char → List Char → Option Bool
  | 0, _, _ => none
  | fuel + 1, pattern, name =>
    if pattern = [] then some name.isEmpty
    else
      let sc := scanChunk pattern
      let star := sc.1
      let chunk := sc.2.1
      let rest := sc.2.2
      if star && chunk.isEmpty then some (!name.contains '/')
      else
        match matchChunk (chunk.length + 1) chunk name false with
        | none => none
        | some (some t) =>
          if t.isEmpty || !rest.isEmpty then matchLoop fuel rest t
          else if star then
            match starScan chunk rest.isEmpty name with
            | StarScan.bad => none
            | StarScan.noMatch => some false
            | StarScan.found t1 => matchLoop fuel rest t1
          else some false
        | some none =>
          if star then
            match starScan chunk rest.isEmpty name with
            | StarScan.bad => none
            | StarScan.noMatch => some false
            | StarScan.found t1 => matchLoop fuel rest t1
          else some false

/-- Go `filepath.Match` (Unix): does the shell pattern match the whole name?
`none` is `ErrBadPattern`.  Strings are read as code points; Go skips bytes in
the star loop, which gives the same answer on ASCII names. -/
def Match (pattern name : String) : Option Bool :=
  matchLoop (pattern.length + 1) pattern.data name.data

/-- The magic characters of Go `hasMeta` (Unix): `*`, `?`, `[` and the
backslash. -/
def isMagic (c : Char) : Bool :=
  decide (c = '*' ∨ c = '?' ∨ c = '[' ∨ c = '\\')

/-- Go `hasMeta` (Unix): does the path contain one of the magic characters
recognised by `Match`? -/
def hasMeta (path : String) : Bool :=
  path.data.any isMagic

/-- A string that names one path element literally: it has no separator and no
magic character. -/
def plainElement (s : String) : Prop :=
  ∀ c ∈ s.data, c ≠ '/' ∧ isMagic c = false

/-! ## The destination directory -/

/-- An entry of a directory: a file with its content, or a directory with its
named entries. -/
inductive Node where
  | file (data : String)
  | dir (entries : List (String × Node))

/-- The named entries of a directory. -/
abbrev Dir := List (String × Node)

/-- The entry of the given name, if there is one. -/
def lookup (name : String) : Dir → Option Node
  | [] => none
  | (k, v) :: rest => if k = name then some v else lookup name rest

/-- The directory without the entry of the given name. -/
def erase (name : String) (d : Dir) : Dir :=
  d.filter (fun e => decide (e.1 ≠ name))

/-- The entries of the directory `d` of `fs`; `none` when `fs` has no entry
`d` or `d` is not a directory. -/
def entriesOf (d : String) (fs : Dir) : Option Dir :=
  match lookup d fs with
  | some (Node.dir es) => some es
  | _ => none

/-- The entry `fs/d/c`, if there is one. -/
def lookupChild (d c : String) (fs : Dir) : Option Node :=
  match entriesOf d fs with
  | some es => lookup c es
  | none => none

/-- Inserts a name into a list of names in increasing order; names are
compared character by character, which on UTF-8 is Go's comparison of bytes. -/
def insertSorted (x : String) : List String → List String
  | [] => [x]
  | y :: ys => if x.data < y.data then x :: y :: ys else y :: insertSorted x ys

/-- Go `sort.Strings`: the names in increasing order. -/
def sortStrings (names : List String) : List String :=
  names.foldr insertSorted []

/-- The names, in the order given, that the pattern matches; `none` is
`ErrBadPattern` (the loop over `names` in Go `glob`). -/
def matchNames (pattern : String) : List String → Option (List String)
  | [] => some []
  | n :: ns =>
    match Match pattern n with
    | none => none
    | some matched =>
      match matchNames pattern ns with
      | none => none
      | some ms => some (if matched then n :: ms else ms)

/-- Go `glob(dir, pattern, matches)` for a directory `d` directly below the
destination: appends to `found` the entries of `d` the pattern matches, in
increasing order of their names, each as the pair of `d` and the entry name
(the path `rootfsDir/d/name`).  Nothing is appended when `d` does not exist or
is not a directory; `none` is `ErrBadPattern`. -/
def glob (fs : Dir) (d : String) (pattern : String) (found : List (String × String)) :
    Option (List (String × String)) :=
  match entriesOf d fs with
  | none => some found
  | some es =>
    match matchNames pattern (sortStrings (es.map Prod.fst)) with
    | none => none
    | some ms => some (found ++ ms.map (fun n => (d, n)))

/-- The loop `for _, d := range m { matches, err = glob(d, file, matches) }` of
Go `Glob`. -/
def globAll (fs : Dir) (pattern : String) :
    List String → List (String × String) → Option (List (String × String))
  | [], found => some found
  | d :: ds, found =>
    match glob fs d pattern found with
    | none => none
    | some found1 => globAll fs pattern ds found1

/-- Go `filepath.Glob` at the pattern `filepath.Join(rootfsDir, nested) + "/*"`,
where `fs` holds the entries of `rootfsDir` and `nested` names one path element.
A match `rootfsDir/d/c` is given as the pair `(d, c)`; `none` is
`ErrBadPattern`.

As in Go: the pattern is first checked by `Match(pattern, "")`.  When the
directory part has no magic character its entries are listed.  Otherwise the
directory part is itself globbed (checked the same way, then its last element
matched against the names in `rootfsDir`), and the entries of every matching
directory are listed in turn.

The tree holds the destination only: when `rootfsDir` itself has a magic
character the matching directories lie outside it and no match is reported. -/
def Glob (rootfsDir : String) (fs : Dir) (nested : String) :
    Option (List (String × String)) :=
  let dir := filepathJoin rootfsDir nested
  match Match (dir ++ "/*") "" with
  | none => none
  | some _ =>
    if hasMeta dir = false then glob fs nested "*" []
    else
      match Match dir "" with
      | none => none
      | some _ =>
        if hasMeta rootfsDir then some []
        else
          match matchNames nested (sortStrings (fs.map Prod.fst)) with
          | none => none
          | some ds => globAll fs "*" ds []

/-- Is the entry a directory? -/
def Node.isDir : Node → Bool
  | Node.dir _ => true
  | Node.file _ => false

/-- An entry without its entry `c`, when it is a directory. -/
def withoutChild (c : String) : Node → Node
  | Node.dir es => Node.dir (erase c es)
  | Node.file x => Node.file x

/-- The directory `fs` with the entry `c` removed from its directory `d`. -/
def removeChild (d c : String) : Dir → Dir
  | [] => []
  | (k, v) :: rest =>
    if k = d then
      match v with
      | Node.dir es => (k, Node.dir (erase c es)) :: removeChild d c rest
      | Node.file x => (k, Node.file x) :: removeChild d c rest
    else (k, v) :: removeChild d c rest

/-- Go `os.Rename(rootfsDir/d/c, rootfsDir/c)` on Unix; the error is the
message of the `LinkError`.

* If the new path is an existing directory the call fails: with the error of
  the old path when that does not exist, with `file exists` otherwise.
* `rename(2)` fails when the old path does not exist, and when the old path is a
  directory while the new path exists and is none.
* Otherwise the entry moves; a file already at the new path is replaced. -/
def Rename (fs : Dir) (d c : String) : Except String Dir :=
  match lookup c fs with
  | some (Node.dir _) =>
    match lookupChild d c fs with
    | none => Except.error "no such file or directory"
    | some _ => Except.error "file exists"
  | target =>
    match lookupChild d c fs with
    | none => Except.error "no such file or directory"
    | some e =>
      if e.isDir && target.isSome then Except.error "not a directory"
      else Except.ok ((c, e) :: erase c (removeChild d c fs))

/-- Go `os.RemoveAll(rootfsDir/name)`: removes the entry and everything below
it; a missing entry is no error. -/
def RemoveAll (fs : Dir) (name : String) : Dir :=
  erase name fs

/-! ## Values, collaborators and runs -/

/-- A Go `error` value returned by `Run` or `getLatestRelease`: one created in
the source file by `errors.New` or `fmt.Errorf`, or one handed back by a
collaborator or the standard library.  Errors of the two origins are distinct
values even when their messages agree. -/
inductive Error where
  | new (msg : String)
  | external (msg : String)
  deriving DecidableEq, Repr

/-- The error of `errors.New("GPG keys are required if downloading from HTTP")`. -/
def policyError : Error :=
  Error.new "GPG keys are required if downloading from HTTP"

/-- The error of `errors.New("Failed to verify tarball")`. -/
def verifyError : Error :=
  Error.new "Failed to verify tarball"

/-- The error of `fmt.Errorf("Failed to determine latest release")`. -/
def releaseError : Error :=
  Error.new "Failed to determine latest release"

/-- A call a run makes to a collaborator or to the file system, with its
arguments. -/
inductive Event where
  | loadURL (url : String)
  | downloadHash (file checksum : String)
  | verifyFile (signedFile signatureFile : String) (keys : List String) (keyserver : String)
  | unpack (file path : String) (blockBackend runningInUserns : Bool)
  | glob (pattern : String)
  | rename (oldpath newpath : String)
  | removeAll (path : String)
  deriving DecidableEq, Repr

/-- The `Data` field of an `html.Node`. -/
structure HtmlNode where
  Data : String
  deriving DecidableEq, Repr

/-- The `Scheme` field of a parsed `url.URL`. -/
structure URL where
  Scheme : String
  deriving DecidableEq, Repr

/-- Modelled from the spec: the declaration of `shared.Definition` is not among
the sources.  These are the `Image` fields `Run` reads: the explicit release
(empty when none is configured) and the target architecture identifier. -/
structure DefinitionImage where
  Release : String
  ArchitectureMapped : String
  deriving DecidableEq, Repr

/-- Modelled from the spec: the declaration of `shared.Definition` is not among
the sources.  These are the `Source` fields `Run` reads: the base URL, the trust
keys, the keyserver address and the verification-skip flag. -/
structure DefinitionSource where
  URL : String
  Keys : List String
  Keyserver : String
  SkipVerification : Bool
  deriving DecidableEq, Repr

/-- Modelled from the spec: the declaration of `shared.Definition` is not among
the sources; the read-only input of `Run`. -/
structure Definition where
  Image : DefinitionImage
  Source : DefinitionSource
  deriving DecidableEq, Repr

/-- The collaborators of the source file.  `Doc` is the type of parsed HTML
documents.  An error is given by its message; `none` is Go's `nil` error.

* `LoadURL`: `htmlquery.LoadURL(url)`.
* `FindOne`: `htmlquery.FindOne(doc, expr)`; `none` is the `nil` node.
* `Parse`: `url.Parse(rawurl)`.
* `DownloadHash`: `shared.DownloadHash(file, checksum, nil)`.
* `VerifyFile`: `shared.VerifyFile(signedFile, signatureFile, keys, keyserver)`.
* `Unpack`: `lxd.Unpack(file, path, blockBackend, runningInUserns, nil)`, as the
  contents it leaves in the destination and its error.
* `TempDir`: `os.TempDir()`. -/
structure Env (Doc : Type) where
  LoadURL : String → Except String Doc
  FindOne : Doc → String → Option HtmlNode
  Parse : String → Except String URL
  DownloadHash : String → String → Option String
  VerifyFile : String → String → List String → String → Bool × Option String
  Unpack : String → String → Bool → Bool → Dir → Dir × Option String
  TempDir : String

/-- What `getLatestRelease` returns, with the calls it made. -/
structure Resolved where
  release : String
  err : Option Error
  trace : List Event

/-- What a run of `Run` leaves: the returned error (`none` is `nil`), the calls
made in order, the contents of the destination directory at return, and the
contents right after `lxd.Unpack` returned (`none` when it was not called). -/
structure Outcome where
  err : Option Error
  trace : List Event
  fs : Dir
  extracted : Option Dir

/-- The address of the download page read by `getLatestRelease`. -/
def downloadPage : String :=
  "https://www.archlinux.org/download/"

/-- The XPath expression `getLatestRelease` selects the release with. -/
def releaseExpr : String :=
  "//*[@id=\"arch-downloads\"]/ul[1]/li[1]/text()"

/-- `ArchLinuxHTTP.getLatestRelease` (source lines 102-114). -/
def getLatestRelease {Doc : Type} (env : Env Doc) : Resolved :=
  match env.LoadURL downloadPage with
  | Except.error e => ⟨"", some (Error.external e), [Event.loadURL downloadPage]⟩
  | Except.ok doc =>
    match env.FindOne doc releaseExpr with
    | none => ⟨"", some releaseError, [Event.loadURL downloadPage]⟩
    | some node => ⟨TrimSpace node.Data, none, [Event.loadURL downloadPage]⟩

/-- The release `Run` works with (source lines 28-38): the configured one, or
the latest one when none is configured. -/
def resolveRelease {Doc : Type} (env : Env Doc) (definition : Definition) : Resolved :=
  if definition.Image.Release = "" then getLatestRelease env
  else ⟨definition.Image.Release, none, []⟩

/-- The value of `fname` in `Run` (source lines 40-41). -/
def fname (release arch : String) : String :=
  "archlinux-bootstrap-" ++ release ++ "-" ++ arch ++ ".tar.gz"

/-- The value of `tarball` in `Run` (source lines 42-43). -/
def tarball (sourceURL release arch : String) : String :=
  sourceURL ++ "/" ++ release ++ "/" ++ fname release arch

/-- The forced signature check of `Run` (source lines 60-75): the error it
returns with, if any, and the calls made.  The result of downloading the
signature is discarded. -/
def verifyStep {Doc : Type} (env : Env Doc) (definition : Definition) (url : URL)
    (release : String) : Option Error × List Event :=
  let file := fname release definition.Image.ArchitectureMapped
  let source := tarball definition.Source.URL release definition.Image.ArchitectureMapped
  if !definition.Source.SkipVerification && url.Scheme != "https" then
    let signed := filepathJoin env.TempDir file
    let signature := filepathJoin env.TempDir (file ++ ".sig")
    let _ := env.DownloadHash (source ++ ".sig") ""
    let calls := [Event.downloadHash (source ++ ".sig") "",
      Event.verifyFile signed signature definition.Source.Keys definition.Source.Keyserver]
    match env.VerifyFile signed signature definition.Source.Keys definition.Source.Keyserver with
    | (_, some e) => (some (Error.external e), calls)
    | (valid, none) => if !valid then (some verifyError, calls) else (none, calls)
  else (none, [])

/-- The loop over `files` in `Run` (source lines 91-96): every match is renamed
into the destination under its base name; the first failure ends the run.  A
match is the pair of the directory and the entry it names, and its base name
is the entry name. -/
def renameLoop (rootfsDir : String) :
    List (String × String) → Dir → Option Error × List Event × Dir
  | [], fs => (none, [], fs)
  | (d, c) :: rest, fs =>
    let file := filepathJoin (filepathJoin rootfsDir d) c
    let call := Event.rename file (filepathJoin rootfsDir (pathBase file))
    match Rename fs d c with
    | Except.error e => (some (Error.external e), [call], fs)
    | Except.ok fs1 =>
      let r := renameLoop rootfsDir rest fs1
      (r.1, call :: r.2.1, r.2.2)

/-- The layout fix of `Run` (source lines 83-99): the entries of
`rootfsDir/root.<arch>` are moved into `rootfsDir` and the directory is
removed. -/
def flatten (rootfsDir arch : String) (fs : Dir) : Option Error × List Event × Dir :=
  let nested := "root." ++ arch
  let call := Event.glob (filepathJoin rootfsDir nested ++ "/*")
  match Glob rootfsDir fs nested with
  | none => (some (Error.external "syntax error in pattern"), [call], fs)
  | some files =>
    let r := renameLoop rootfsDir files fs
    match r.1 with
    | some e => (some e, call :: r.2.1, r.2.2)
    | none =>
      (none, call :: r.2.1 ++ [Event.removeAll (filepathJoin rootfsDir nested)],
        RemoveAll r.2.2 nested)

/-- `ArchLinuxHTTP.Run` (source lines 27-100), started with the destination
directory holding `fs`. -/
def Run {Doc : Type} (env : Env Doc) (definition : Definition) (rootfsDir : String)
    (fs : Dir) : Outcome :=
  let arch := definition.Image.ArchitectureMapped
  let r := resolveRelease env definition
  match r.err with
  | some err => ⟨some err, r.trace, fs, none⟩
  | none =>
    let release := r.release
    let file := fname release arch
    let source := tarball definition.Source.URL release arch
    match env.Parse source with
    | Except.error e => ⟨some (Error.external e), r.trace, fs, none⟩
    | Except.ok url =>
      if !definition.Source.SkipVerification && url.Scheme != "https" &&
          definition.Source.Keys.length == 0 then
        ⟨some policyError, r.trace, fs, none⟩
      else
        let t1 := r.trace ++ [Event.downloadHash source ""]
        match env.DownloadHash source "" with
        | some e => ⟨some (Error.external e), t1, fs, none⟩
        | none =>
          let v := verifyStep env definition url release
          match v.1 with
          | some e => ⟨some e, t1 ++ v.2, fs, none⟩
          | none =>
            let staged := filepathJoin env.TempDir file
            let t2 := t1 ++ v.2 ++ [Event.unpack staged rootfsDir false false]
            let u := env.Unpack staged rootfsDir false false fs
            match u.2 with
            | some e => ⟨some (Error.external e), t2, u.1, some u.1⟩
            | none =>
              let n := flatten rootfsDir arch u.1
              ⟨n.1, t2 ++ n.2.1, n.2.2, some u.1⟩

/-! ## Kinds of calls -/

/-- Is the call a network request (a page fetch or a download)? -/
def Event.isRequest : Event → Bool
  | Event.loadURL _ => true
  | Event.downloadHash _ _ => true
  | _ => false

/-- Is the call a download by `shared.DownloadHash`? -/
def Event.isDownload : Event → Bool
  | Event.downloadHash _ _ => true
  | _ => false

/-- Is the call an invocation of the signature verifier? -/
def Event.isVerify : Event → Bool
  | Event.verifyFile _ _ _ _ => true
  | _ => false

/-- Is the call an invocation of the archive extraction? -/
def Event.isUnpack : Event → Bool
  | Event.unpack _ _ _ _ => true
  | _ => false

/-- Is the call a rename or a removal in the destination directory? -/
def Event.isMove : Event → Bool
  | Event.rename _ _ => true
  | Event.removeAll _ => true
  | _ => false

/-- Is the call one of the file system calls of the layout fix? -/
def Event.isLayout : Event → Bool
  | Event.glob _ => true
  | Event.rename _ _ => true
  | Event.removeAll _ => true
  | _ => false

/-! ## Sample environments -/

/-- The scheme scan of Go `url.Parse` (`getscheme`): the characters before the
first `:` when they are a letter followed by letters, digits, `+`, `-` or `.`;
no scheme when another character comes first; `none` (the error
`missing protocol scheme`) when the URL starts with `:`.  `seen` holds the
characters read so far, the last one first. -/
def getscheme : List Char → List Char → Option (List Char)
  | [], _ => some []
  | c :: cs, seen =>
    if c.isAlpha then getscheme cs (c :: seen)
    else if c.isDigit ∨ c = '+' ∨ c = '-' ∨ c = '.' then
      if seen = [] then some [] else getscheme cs (c :: seen)
    else if c = ':' then
      if seen = [] then none else some seen.reverse
    else some []

/-- A sample `url.Parse`: the scheme scan of Go `url.Parse` with the scheme
put in lower case; the later checks of `url.Parse` are left out. -/
def sampleParse (rawurl : String) : Except String URL :=
  match getscheme rawurl.data [] with
  | none => Except.error "missing protocol scheme"
  | some sch => Except.ok ⟨⟨sch.map Char.toLower⟩⟩

/-- A sample environment: the download page loads and the release node is
`node`; downloads answer by `download`; the verifier answers `verify`; the
extraction leaves `unpacked` in the destination and succeeds; the staging
directory is `/tmp`. -/
def sampleEnv (node : Option HtmlNode) (download : String → Option String)
    (verify : Bool × Option String) (unpacked : Dir) : Env String where
  LoadURL := fun _ => Except.ok "<html>"
  FindOne := fun _ _ => node
  Parse := sampleParse
  DownloadHash := fun file _ => download file
  VerifyFile := fun _ _ _ _ => verify
  Unpack := fun _ _ _ _ _ => (unpacked, none)
  TempDir := "/tmp"

/-- A bootstrap tree for `x86_64`, as the extraction leaves it. -/
def sampleTree : Dir :=
  [("root.x86_64", Node.dir [("etc", Node.dir [("hostname", Node.file "arch")]),
    ("README", Node.file "bootstrap")])]

/-- A tree whose top directory is named for the architecture `[x]`. -/
def bracketTree : Dir :=
  [("root.[x]", Node.dir [("etc", Node.dir [("hostname", Node.file "arch")]),
    ("README", Node.file "bootstrap")])]

/-- A definition with the given release, base URL, keys and skip flag, for the
architecture `x86_64`. -/
def sampleDefinition (release sourceURL : String) (keys : List String) (skip : Bool) :
    Definition :=
  ⟨⟨release, "x86_64"⟩, ⟨sourceURL, keys, "keyserver.example.org", skip⟩⟩

/-! ## Calls made by the stages of a run -/

theorem resolveRelease_trace {Doc : Type} (env : Env Doc) (d : Definition) :
    (resolveRelease env d).trace =
      if d.Image.Release = "" then [Event.loadURL downloadPage] else [] := by
  unfold resolveRelease getLatestRelease
  split
  · split
    · rfl
    · split <;> rfl
  · rfl

theorem resolveRelease_trace_mem {Doc : Type} (env : Env Doc) (d : Definition) (e : Event)
    (h : e ∈ (resolveRelease env d).trace) : e = Event.loadURL downloadPage := by
  rw [resolveRelease_trace] at h
  split at h <;> simp_all

theorem resolveRelease_err {Doc : Type} (env : Env Doc) (d : Definition) (e : Error)
    (h : (resolveRelease env d).err = some e) :
    e = releaseError ∨ ∃ m, e = Error.external m := by
  unfold resolveRelease getLatestRelease at h
  split at h
  · split at h
    · simp at h; exact Or.inr ⟨_, h.symm⟩
    · split at h
      · simp at h; exact Or.inl h.symm
      · simp at h
  · simp at h

theorem renameLoop_trace (rootfsDir : String) (files : List (String × String)) (fs : Dir)
    (e : Event) (h : e ∈ (renameLoop rootfsDir files fs).2.1) :
    ∃ o n, e = Event.rename o n := by
  induction files generalizing fs with
  | nil => simp [renameLoop] at h
  | cons f rest ih =>
    obtain ⟨d, c⟩ := f
    simp only [renameLoop] at h
    split at h
    · simp at h; exact ⟨_, _, h⟩
    · simp only [List.mem_cons] at h
      rcases h with h | h
      · exact ⟨_, _, h⟩
      · exact ih _ h

theorem renameLoop_err (rootfsDir : String) (files : List (String × String)) (fs : Dir)
    (e : Error) (h : (renameLoop rootfsDir files fs).1 = some e) :
    ∃ m, e = Error.external m := by
  induction files generalizing fs with
  | nil => simp [renameLoop] at h
  | cons f rest ih =>
    obtain ⟨d, c⟩ := f
    simp only [renameLoop] at h
    split at h
    · simp at h; exact ⟨_, h.symm⟩
    · exact ih _ h

theorem flatten_trace (rootfsDir arch : String) (fs : Dir) (e : Event)
    (h : e ∈ (flatten rootfsDir arch fs).2.1) : e.isLayout = true := by
  unfold flatten at h
  cases hg : Glob rootfsDir fs ("root." ++ arch) with
  | none =>
    simp [hg] at h; subst h; rfl
  | some files =>
    cases hr : (renameLoop rootfsDir files fs).1 with
    | some e1 =>
      simp only [hg, hr, List.mem_cons] at h
      rcases h with h | h
      · subst h; rfl
      · obtain ⟨o, n, rfl⟩ := renameLoop_trace _ _ _ _ h
        rfl
    | none =>
      simp only [hg, hr, List.cons_append, List.mem_cons, List.mem_append,
        List.mem_singleton, List.not_mem_nil, or_false] at h
      rcases h with h | h | h
      · subst h; rfl
      · obtain ⟨o, n, rfl⟩ := renameLoop_trace _ _ _ _ h
        rfl
      · subst h; rfl

theorem flatten_err (rootfsDir arch : String) (fs : Dir) (e : Error)
    (h : (flatten rootfsDir arch fs).1 = some e) : ∃ m, e = Error.external m := by
  unfold flatten at h
  cases hg : Glob rootfsDir fs ("root." ++ arch) with
  | none =>
    simp [hg] at h; exact ⟨_, h.symm⟩
  | some files =>
    cases hr : (renameLoop rootfsDir files fs).1 with
    | some e1 =>
      simp [hg, hr] at h; subst h
      exact renameLoop_err _ _ _ _ hr
    | none =>
      simp [hg, hr] at h

theorem verifyStep_off {Doc : Type} (env : Env Doc) (d : Definition) (url : URL)
    (release : String)
    (h : d.Source.SkipVerification = true ∨ url.Scheme = "https") :
    verifyStep env d url release = (none, []) := by
  unfold verifyStep
  rcases h with h | h <;> simp [h]

theorem append_sig_ne (s : String) : s ++ ".sig" ≠ s := by
  intro h
  have := congrArg String.length h
  simp [String.length_append] at this
  revert this; decide

theorem verifyStep_on {Doc : Type} (env : Env Doc) (d : Definition) (url : URL)
    (release : String) (h1 : d.Source.SkipVerification = false) (h2 : url.Scheme ≠ "https") :
    verifyStep env d url release =
      ((match env.VerifyFile
            (filepathJoin env.TempDir (fname release d.Image.ArchitectureMapped))
            (filepathJoin env.TempDir (fname release d.Image.ArchitectureMapped ++ ".sig"))
            d.Source.Keys d.Source.Keyserver with
        | (_, some e) => some (Error.external e)
        | (valid, none) => if valid then none else some verifyError),
       [Event.downloadHash
          (tarball d.Source.URL release d.Image.ArchitectureMapped ++ ".sig") "",
        Event.verifyFile
          (filepathJoin env.TempDir (fname release d.Image.ArchitectureMapped))
          (filepathJoin env.TempDir (fname release d.Image.ArchitectureMapped ++ ".sig"))
          d.Source.Keys d.Source.Keyserver]) := by
  unfold verifyStep
  rcases hv : env.VerifyFile
      (filepathJoin env.TempDir (fname release d.Image.ArchitectureMapped))
      (filepathJoin env.TempDir (fname release d.Image.ArchitectureMapped ++ ".sig"))
      d.Source.Keys d.Source.Keyserver with ⟨valid, err⟩
  cases err <;> cases valid <;> simp [h1, h2, hv]

theorem verifyStep_cases {Doc : Type} (env : Env Doc) (d : Definition) (url : URL)
    (release : String) :
    (d.Source.SkipVerification = false ∧ url.Scheme ≠ "https") ∨
    verifyStep env d url release = (none, []) := by
  by_cases h1 : d.Source.SkipVerification = true
  · exact Or.inr (verifyStep_off env d url release (Or.inl h1))
  · by_cases h2 : url.Scheme = "https"
    · exact Or.inr (verifyStep_off env d url release (Or.inr h2))
    · exact Or.inl ⟨by simpa using h1, h2⟩

theorem verifyStep_trace_mem {Doc : Type} (env : Env Doc) (d : Definition) (url : URL)
    (release : String) (e : Event) (h : e ∈ (verifyStep env d url release).2) :
    (d.Source.SkipVerification = false ∧ url.Scheme ≠ "https") ∧
    (e = Event.downloadHash
        (tarball d.Source.URL release d.Image.ArchitectureMapped ++ ".sig") "" ∨
      e = Event.verifyFile
        (filepathJoin env.TempDir (fname release d.Image.ArchitectureMapped))
        (filepathJoin env.TempDir (fname release d.Image.ArchitectureMapped ++ ".sig"))
        d.Source.Keys d.Source.Keyserver) := by
  rcases verifyStep_cases env d url release with hc | hc
  · refine ⟨hc, ?_⟩
    rw [verifyStep_on env d url release hc.1 hc.2] at h
    simpa using h
  · rw [hc] at h
    simp at h

theorem verifyStep_err {Doc : Type} (env : Env Doc) (d : Definition) (url : URL)
    (release : String) (e : Error) (h : (verifyStep env d url release).1 = some e) :
    e = verifyError ∨ ∃ m, e = Error.external m := by
  rcases verifyStep_cases env d url release with hc | hc
  · rw [verifyStep_on env d url release hc.1 hc.2] at h
    simp only at h
    split at h
    · simp at h; exact Or.inr ⟨_, h.symm⟩
    · split at h
      · simp at h
      · simp at h; exact Or.inl h.symm
  · rw [hc] at h
    simp at h

/-- Every call of a run is the page fetch of the release lookup, the download
of the artifact, the signature download or the verifier call of a forced
check, the extraction of the staged artifact, or a call of the layout fix. -/
theorem Run_trace_mem {Doc : Type} (env : Env Doc) (d : Definition) (rootfsDir : String)
    (fs : Dir) (e : Event) (h : e ∈ (Run env d rootfsDir fs).trace) :
    e = Event.loadURL downloadPage ∨
    e = Event.downloadHash (tarball d.Source.URL (resolveRelease env d).release
      d.Image.ArchitectureMapped) "" ∨
    ((∃ url, env.Parse (tarball d.Source.URL (resolveRelease env d).release
        d.Image.ArchitectureMapped) = Except.ok url ∧
        d.Source.SkipVerification = false ∧ url.Scheme ≠ "https") ∧
      (e = Event.downloadHash (tarball d.Source.URL (resolveRelease env d).release
          d.Image.ArchitectureMapped ++ ".sig") "" ∨
        e = Event.verifyFile
          (filepathJoin env.TempDir
            (fname (resolveRelease env d).release d.Image.ArchitectureMapped))
          (filepathJoin env.TempDir
            (fname (resolveRelease env d).release d.Image.ArchitectureMapped ++ ".sig"))
          d.Source.Keys d.Source.Keyserver)) ∨
    e = Event.unpack
      (filepathJoin env.TempDir
        (fname (resolveRelease env d).release d.Image.ArchitectureMapped))
      rootfsDir false false ∨
    e.isLayout = true := by
  have hr := resolveRelease_trace_mem env d
  unfold Run at h
  cases hres : (resolveRelease env d).err with
  | some err =>
    simp only [hres] at h
    exact Or.inl (hr e h)
  | none =>
    cases hp : env.Parse (tarball d.Source.URL (resolveRelease env d).release
        d.Image.ArchitectureMapped) with
    | error m =>
      simp only [hres, hp] at h
      exact Or.inl (hr e h)
    | ok url =>
      simp only [hres, hp] at h
      split at h
      · exact Or.inl (hr e h)
      · cases hd : env.DownloadHash (tarball d.Source.URL (resolveRelease env d).release
            d.Image.ArchitectureMapped) "" with
        | some m =>
          simp only [hd, List.mem_append, List.mem_singleton] at h
          rcases h with h | h
          · exact Or.inl (hr e h)
          · exact Or.inr (Or.inl h)
        | none =>
          simp only [hd] at h
          cases hv : (verifyStep env d url (resolveRelease env d).release).1 with
          | some ev =>
            simp only [hv, List.mem_append, List.mem_singleton] at h
            rcases h with (h | h) | h
            · exact Or.inl (hr e h)
            · exact Or.inr (Or.inl h)
            · have := verifyStep_trace_mem env d url _ e h
              exact Or.inr (Or.inr (Or.inl ⟨⟨url, rfl, this.1⟩, this.2⟩))
          | none =>
            simp only [hv] at h
            split at h
            · simp only [List.mem_append, List.mem_singleton] at h
              rcases h with ((h | h) | h) | h
              · exact Or.inl (hr e h)
              · exact Or.inr (Or.inl h)
              · have := verifyStep_trace_mem env d url _ e h
                exact Or.inr (Or.inr (Or.inl ⟨⟨url, rfl, this.1⟩, this.2⟩))
              · exact Or.inr (Or.inr (Or.inr (Or.inl h)))
            · simp only [List.mem_append, List.mem_singleton] at h
              rcases h with (((h | h) | h) | h) | h
              · exact Or.inl (hr e h)
              · exact Or.inr (Or.inl h)
              · have := verifyStep_trace_mem env d url _ e h
                exact Or.inr (Or.inr (Or.inl ⟨⟨url, rfl, this.1⟩, this.2⟩))
              · exact Or.inr (Or.inr (Or.inr (Or.inl h)))
              · exact Or.inr (Or.inr (Or.inr (Or.inr (flatten_trace _ _ _ e h))))

/-- A run returns the policy error only through the gate: verification is not
skipped, the scheme of the parsed URL is not `https`, and no key is
configured. -/
theorem Run_err_policy {Doc : Type} (env : Env Doc) (d : Definition) (rootfsDir : String)
    (fs : Dir) (h : (Run env d rootfsDir fs).err = some policyError) :
    ∃ url, env.Parse (tarball d.Source.URL (resolveRelease env d).release
        d.Image.ArchitectureMapped) = Except.ok url ∧
      d.Source.SkipVerification = false ∧ url.Scheme ≠ "https" ∧ d.Source.Keys = [] := by
  unfold Run at h
  cases hres : (resolveRelease env d).err with
  | some err =>
    simp only [hres] at h
    rcases resolveRelease_err env d err hres with h1 | ⟨m, h1⟩
    · subst h1; simp [releaseError, policyError] at h
    · subst h1; simp [policyError] at h
  | none =>
    cases hp : env.Parse (tarball d.Source.URL (resolveRelease env d).release
        d.Image.ArchitectureMapped) with
    | error m =>
      simp [hres, hp, policyError] at h
    | ok url =>
      simp only [hres, hp] at h
      split at h
      · rename_i hc
        refine ⟨url, rfl, ?_⟩
        simpa [and_assoc] using hc
      · exfalso
        cases hd : env.DownloadHash (tarball d.Source.URL (resolveRelease env d).release
            d.Image.ArchitectureMapped) "" with
        | some m => simp [hd, policyError] at h
        | none =>
          simp only [hd] at h
          cases hv : (verifyStep env d url (resolveRelease env d).release).1 with
          | some ev =>
            simp only [hv] at h
            rcases verifyStep_err env d url _ ev hv with h1 | ⟨m, h1⟩
            · subst h1; simp [policyError, verifyError] at h
            · subst h1; simp [policyError] at h
          | none =>
            simp only [hv] at h
            split at h
            · simp [policyError] at h
            · obtain ⟨m, hm⟩ := flatten_err _ _ _ _ h
              simp [policyError] at hm

theorem resolveRelease_configured {Doc : Type} (env : Env Doc) (d : Definition)
    (h : d.Image.Release ≠ "") :
    resolveRelease env d = ⟨d.Image.Release, none, []⟩ := by
  simp [resolveRelease, h]

/-- When the release is resolved, the URL parses, the gate lets the run pass
and the artifact downloads, and no check is forced, the extraction is the call
right after the download. -/
theorem Run_direct {Doc : Type} (env : Env Doc) (d : Definition) (rootfsDir : String)
    (fs : Dir) (url : URL)
    (hres : (resolveRelease env d).err = none)
    (hparse : env.Parse (tarball d.Source.URL (resolveRelease env d).release
      d.Image.ArchitectureMapped) = Except.ok url)
    (hoff : d.Source.SkipVerification = true ∨ url.Scheme = "https")
    (hdl : env.DownloadHash (tarball d.Source.URL (resolveRelease env d).release
      d.Image.ArchitectureMapped) "" = none) :
    ∃ rest, (Run env d rootfsDir fs).trace =
      (resolveRelease env d).trace ++
        Event.downloadHash (tarball d.Source.URL (resolveRelease env d).release
          d.Image.ArchitectureMapped) "" ::
        Event.unpack (filepathJoin env.TempDir
          (fname (resolveRelease env d).release d.Image.ArchitectureMapped))
          rootfsDir false false :: rest := by
  have hv := verifyStep_off env d url (resolveRelease env d).release hoff
  have hgate : (!d.Source.SkipVerification && url.Scheme != "https" &&
      d.Source.Keys.length == 0) = false := by
    rcases hoff with h | h <;> simp [h]
  unfold Run
  simp only [hres, hparse, hgate, hdl, hv, Bool.false_eq_true, ↓reduceIte, List.append_nil]
  split
  · exact ⟨[], by simp⟩
  · exact ⟨_, by simp; rfl⟩

/-! ## C1: the policy gate -/

/-- C1 (as amended).  When verification is not skipped, the release is
resolved, the artifact URL parses with a scheme other than `https` and no
trust key is configured, `Run` returns the policy error, leaves the destination
as it was and downloads nothing.  With a configured release it makes no call at
all; with an empty release its one call, made before the error, is the page
fetch of `getLatestRelease`. -/
theorem c1_policy_gate {Doc : Type} (env : Env Doc) (d : Definition) (rootfsDir : String)
    (fs : Dir) (url : URL)
    (hskip : d.Source.SkipVerification = false)
    (hkeys : d.Source.Keys = [])
    (hres : (resolveRelease env d).err = none)
    (hparse : env.Parse (tarball d.Source.URL (resolveRelease env d).release
      d.Image.ArchitectureMapped) = Except.ok url)
    (hscheme : url.Scheme ≠ "https") :
    (Run env d rootfsDir fs).err = some policyError ∧
    (Run env d rootfsDir fs).trace =
      (if d.Image.Release = "" then [Event.loadURL downloadPage] else []) ∧
    (∀ e ∈ (Run env d rootfsDir fs).trace, e.isDownload = false) ∧
    (Run env d rootfsDir fs).fs = fs := by
  have ht := resolveRelease_trace env d
  have hrun : (Run env d rootfsDir fs) = ⟨some policyError, (resolveRelease env d).trace, fs,
      none⟩ := by
    simp only [Run, hres, hparse, hskip, hkeys]
    simp [hscheme]
  rw [hrun]
  refine ⟨rfl, ht, ?_, rfl⟩
  intro e he
  rw [resolveRelease_trace_mem env d e he]
  rfl

/-- Witness of C1: a configured release over `http` without keys. -/
theorem c1_policy_gate_witness :
    (Run (sampleEnv none (fun _ => none) (true, none) sampleTree)
      (sampleDefinition "2024.01.01" "http://example.org/arch" [] false) "/rootfs" []).err
      = some policyError ∧
    (Run (sampleEnv none (fun _ => none) (true, none) sampleTree)
      (sampleDefinition "2024.01.01" "http://example.org/arch" [] false) "/rootfs" []).trace
      = [] :=
  have h := c1_policy_gate (sampleEnv none (fun _ => none) (true, none) sampleTree)
    (sampleDefinition "2024.01.01" "http://example.org/arch" [] false) "/rootfs" []
    ⟨"http"⟩ rfl rfl rfl rfl (by decide)
  ⟨h.1, h.2.1⟩

/-- Counterexample to C1 as stated: with an empty release, `http` and no keys,
the run fetches the download page before it returns the policy error, so it
does not issue zero network requests. -/
theorem c1_counterexample :
    (sampleDefinition "" "http://example.org/arch" [] false).Source.SkipVerification = false ∧
    (sampleDefinition "" "http://example.org/arch" [] false).Source.Keys = [] ∧
    sampleParse "http://example.org/arch/2024.02.01/archlinux-bootstrap-2024.02.01-x86_64.tar.gz"
      = Except.ok ⟨"http"⟩ ∧
    (Run (sampleEnv (some ⟨"2024.02.01"⟩) (fun _ => none) (true, none) sampleTree)
      (sampleDefinition "" "http://example.org/arch" [] false) "/rootfs" []).err
      = some policyError ∧
    (Run (sampleEnv (some ⟨"2024.02.01"⟩) (fun _ => none) (true, none) sampleTree)
      (sampleDefinition "" "http://example.org/arch" [] false) "/rootfs" []).trace
      = [Event.loadURL "https://www.archlinux.org/download/"] ∧
    (Event.loadURL "https://www.archlinux.org/download/").isRequest = true :=
  ⟨rfl, rfl, rfl, by decide, by decide, rfl⟩

/-! ## C2: an invalid signature -/

/-- C2.  When verification is required (not skipped, scheme other than `https`,
at least one key), the artifact downloads and the verifier, applied to the
staged artifact `TempDir/fname`, the staged signature `TempDir/fname.sig`, the
configured keys and the configured keyserver, answers invalid without error,
`Run` returns the error "Failed to verify tarball"; its calls end with the
verifier call, so the extraction is never invoked and nothing is renamed or
removed, and the destination is as it was. -/
theorem c2_invalid_signature {Doc : Type} (env : Env Doc) (d : Definition)
    (rootfsDir : String) (fs : Dir) (url : URL)
    (hskip : d.Source.SkipVerification = false)
    (hres : (resolveRelease env d).err = none)
    (hparse : env.Parse (tarball d.Source.URL (resolveRelease env d).release
      d.Image.ArchitectureMapped) = Except.ok url)
    (hscheme : url.Scheme ≠ "https")
    (hkeys : d.Source.Keys ≠ [])
    (hdl : env.DownloadHash (tarball d.Source.URL (resolveRelease env d).release
      d.Image.ArchitectureMapped) "" = none)
    (hver : env.VerifyFile
      (filepathJoin env.TempDir
        (fname (resolveRelease env d).release d.Image.ArchitectureMapped))
      (filepathJoin env.TempDir
        (fname (resolveRelease env d).release d.Image.ArchitectureMapped ++ ".sig"))
      d.Source.Keys d.Source.Keyserver = (false, none)) :
    (Run env d rootfsDir fs).err = some (Error.new "Failed to verify tarball") ∧
    (Run env d rootfsDir fs).trace =
      (resolveRelease env d).trace ++
        [Event.downloadHash (tarball d.Source.URL (resolveRelease env d).release
            d.Image.ArchitectureMapped) "",
          Event.downloadHash (tarball d.Source.URL (resolveRelease env d).release
            d.Image.ArchitectureMapped ++ ".sig") "",
          Event.verifyFile
            (filepathJoin env.TempDir
              (fname (resolveRelease env d).release d.Image.ArchitectureMapped))
            (filepathJoin env.TempDir
              (fname (resolveRelease env d).release d.Image.ArchitectureMapped ++ ".sig"))
            d.Source.Keys d.Source.Keyserver] ∧
    (∀ e ∈ (Run env d rootfsDir fs).trace, e.isUnpack = false ∧ e.isMove = false) ∧
    (Run env d rootfsDir fs).fs = fs ∧
    (Run env d rootfsDir fs).extracted = none := by
  have hv := verifyStep_on env d url (resolveRelease env d).release hskip hscheme
  rw [hver] at hv
  have hgate : (!d.Source.SkipVerification && url.Scheme != "https" &&
      d.Source.Keys.length == 0) = false := by
    cases hk : d.Source.Keys with
    | nil => exact absurd hk hkeys
    | cons k ks => simp
  have hrun : Run env d rootfsDir fs = ⟨some verifyError,
      (resolveRelease env d).trace ++
        [Event.downloadHash (tarball d.Source.URL (resolveRelease env d).release
            d.Image.ArchitectureMapped) ""] ++
        [Event.downloadHash (tarball d.Source.URL (resolveRelease env d).release
            d.Image.ArchitectureMapped ++ ".sig") "",
          Event.verifyFile
            (filepathJoin env.TempDir
              (fname (resolveRelease env d).release d.Image.ArchitectureMapped))
            (filepathJoin env.TempDir
              (fname (resolveRelease env d).release d.Image.ArchitectureMapped ++ ".sig"))
            d.Source.Keys d.Source.Keyserver], fs, none⟩ := by
    unfold Run
    simp only [hres, hparse, hgate, hdl, hv, Bool.false_eq_true, ↓reduceIte]
  rw [hrun]
  refine ⟨rfl, by simp, ?_, rfl, rfl⟩
  intro e he
  simp only [List.mem_append, List.mem_cons, List.mem_singleton, List.not_mem_nil,
    or_false] at he
  rcases he with (he | he) | he | he
  · rw [resolveRelease_trace_mem env d e he]; exact ⟨rfl, rfl⟩
  · subst he; exact ⟨rfl, rfl⟩
  · subst he; exact ⟨rfl, rfl⟩
  · subst he; exact ⟨rfl, rfl⟩

/-- Witness of C2: a signed artifact over `http` with one key, the verifier
answering invalid. -/
theorem c2_invalid_signature_witness :
    (Run (sampleEnv none (fun _ => none) (false, none) sampleTree)
      (sampleDefinition "2024.01.01" "http://example.org/arch" ["0xKEY"] false)
      "/rootfs" []).err = some (Error.new "Failed to verify tarball") ∧
    (Run (sampleEnv none (fun _ => none) (false, none) sampleTree)
      (sampleDefinition "2024.01.01" "http://example.org/arch" ["0xKEY"] false)
      "/rootfs" []).fs = [] :=
  have h := c2_invalid_signature (sampleEnv none (fun _ => none) (false, none) sampleTree)
    (sampleDefinition "2024.01.01" "http://example.org/arch" ["0xKEY"] false) "/rootfs" []
    ⟨"http"⟩ rfl rfl rfl (by decide) (by decide) rfl rfl
  ⟨h.1, h.2.2.2.1⟩

/-! ## C3: a failed signature download -/

/-- C3 (the code at the failing input).  The signature download fails, the
verifier answers valid: the run goes on to the extraction and returns no
error, because the result of the signature download is discarded. -/
theorem c3_signature_download_error_ignored :
    (sampleEnv none
      (fun file => if file =
        "http://example.org/arch/2024.01.01/archlinux-bootstrap-2024.01.01-x86_64.tar.gz.sig"
        then some "404 Not Found" else none) (true, none) sampleTree).DownloadHash
      (tarball "http://example.org/arch" "2024.01.01" "x86_64" ++ ".sig") ""
      = some "404 Not Found" ∧
    (Run (sampleEnv none
      (fun file => if file =
        "http://example.org/arch/2024.01.01/archlinux-bootstrap-2024.01.01-x86_64.tar.gz.sig"
        then some "404 Not Found" else none) (true, none) sampleTree)
      (sampleDefinition "2024.01.01" "http://example.org/arch" ["0xKEY"] false)
      "/rootfs" []).err = none ∧
    Event.unpack "/tmp/archlinux-bootstrap-2024.01.01-x86_64.tar.gz" "/rootfs" false false ∈
    (Run (sampleEnv none
      (fun file => if file =
        "http://example.org/arch/2024.01.01/archlinux-bootstrap-2024.01.01-x86_64.tar.gz.sig"
        then some "404 Not Found" else none) (true, none) sampleTree)
      (sampleDefinition "2024.01.01" "http://example.org/arch" ["0xKEY"] false)
      "/rootfs" []).trace :=
  ⟨by decide, by decide, by decide⟩

/-! ## C4: skipped verification -/

/-- C4.  When the verification-skip flag is set, whatever the scheme and the
keys: no call of the run is a verifier call, the signature file (artifact URL
followed by ".sig") is never downloaded, the policy error is not returned, and
once the release is resolved, the URL parsed and the artifact downloaded, the
extraction is the call right after the download of the artifact. -/
theorem c4_skip_never_verifies {Doc : Type} (env : Env Doc) (d : Definition)
    (rootfsDir : String) (fs : Dir)
    (hskip : d.Source.SkipVerification = true) :
    (∀ e ∈ (Run env d rootfsDir fs).trace, e.isVerify = false) ∧
    (∀ checksum, Event.downloadHash (tarball d.Source.URL (resolveRelease env d).release
      d.Image.ArchitectureMapped ++ ".sig") checksum ∉ (Run env d rootfsDir fs).trace) ∧
    (Run env d rootfsDir fs).err ≠ some policyError ∧
    (∀ url, (resolveRelease env d).err = none →
      env.Parse (tarball d.Source.URL (resolveRelease env d).release
        d.Image.ArchitectureMapped) = Except.ok url →
      env.DownloadHash (tarball d.Source.URL (resolveRelease env d).release
        d.Image.ArchitectureMapped) "" = none →
      ∃ rest, (Run env d rootfsDir fs).trace =
        (resolveRelease env d).trace ++
          Event.downloadHash (tarball d.Source.URL (resolveRelease env d).release
            d.Image.ArchitectureMapped) "" ::
          Event.unpack (filepathJoin env.TempDir
            (fname (resolveRelease env d).release d.Image.ArchitectureMapped))
            rootfsDir false false :: rest) := by
  refine ⟨?_, ?_, ?_, ?_⟩
  · intro e he
    rcases Run_trace_mem env d rootfsDir fs e he with h | h | ⟨⟨url, _, h, _⟩, _⟩ | h | h
    · subst h; rfl
    · subst h; rfl
    · rw [hskip] at h; exact absurd h (by decide)
    · subst h; rfl
    · cases e <;> simp_all [Event.isLayout, Event.isVerify]
  · intro checksum he
    rcases Run_trace_mem env d rootfsDir fs _ he with h | h | ⟨⟨url, _, h, _⟩, _⟩ | h | h
    · exact Event.noConfusion h
    · injection h with h1 h2
      exact append_sig_ne _ h1
    · rw [hskip] at h; exact absurd h (by decide)
    · exact Event.noConfusion h
    · simp [Event.isLayout] at h
  · intro h
    obtain ⟨url, _, h1, _⟩ := Run_err_policy env d rootfsDir fs h
    rw [hskip] at h1
    exact absurd h1 (by decide)
  · intro url hres hparse hdl
    exact Run_direct env d rootfsDir fs url hres hparse (Or.inl hskip) hdl

/-- Witness of C4: verification skipped over `http` without keys; the run
downloads the artifact and extracts it. -/
theorem c4_skip_never_verifies_witness :
    (sampleDefinition "2024.01.01" "http://example.org/arch" [] true).Source.SkipVerification
      = true ∧
    (∀ e ∈ (Run (sampleEnv none (fun _ => none) (false, none) sampleTree)
      (sampleDefinition "2024.01.01" "http://example.org/arch" [] true) "/rootfs" []).trace,
      e.isVerify = false) ∧
    (Run (sampleEnv none (fun _ => none) (false, none) sampleTree)
      (sampleDefinition "2024.01.01" "http://example.org/arch" [] true) "/rootfs" []).err
      ≠ some policyError :=
  have h := c4_skip_never_verifies (sampleEnv none (fun _ => none) (false, none) sampleTree)
    (sampleDefinition "2024.01.01" "http://example.org/arch" [] true) "/rootfs" [] rfl
  ⟨rfl, h.1, h.2.2.1⟩

/-! ## C5: secure transport -/

/-- C5.  When the release is resolved and the artifact URL parses with the
scheme `https`, whatever the keys and the skip flag: the policy error is not
returned, no call of the run is a verifier call, the signature file is never
downloaded, and once the artifact is downloaded the extraction is the call
right after the download. -/
theorem c5_https_never_verifies {Doc : Type} (env : Env Doc) (d : Definition)
    (rootfsDir : String) (fs : Dir) (url : URL)
    (hres : (resolveRelease env d).err = none)
    (hparse : env.Parse (tarball d.Source.URL (resolveRelease env d).release
      d.Image.ArchitectureMapped) = Except.ok url)
    (hscheme : url.Scheme = "https") :
    (Run env d rootfsDir fs).err ≠ some policyError ∧
    (∀ e ∈ (Run env d rootfsDir fs).trace, e.isVerify = false) ∧
    (∀ checksum, Event.downloadHash (tarball d.Source.URL (resolveRelease env d).release
      d.Image.ArchitectureMapped ++ ".sig") checksum ∉ (Run env d rootfsDir fs).trace) ∧
    (env.DownloadHash (tarball d.Source.URL (resolveRelease env d).release
        d.Image.ArchitectureMapped) "" = none →
      ∃ rest, (Run env d rootfsDir fs).trace =
        (resolveRelease env d).trace ++
          Event.downloadHash (tarball d.Source.URL (resolveRelease env d).release
            d.Image.ArchitectureMapped) "" ::
          Event.unpack (filepathJoin env.TempDir
            (fname (resolveRelease env d).release d.Image.ArchitectureMapped))
            rootfsDir false false :: rest) := by
  refine ⟨?_, ?_, ?_, ?_⟩
  · intro h
    obtain ⟨url1, hp, _, h2, _⟩ := Run_err_policy env d rootfsDir fs h
    rw [hparse] at hp
    injection hp with hp
    subst hp
    exact h2 hscheme
  · intro e he
    rcases Run_trace_mem env d rootfsDir fs e he with h | h | ⟨⟨url1, hp, _, h2⟩, _⟩ | h | h
    · subst h; rfl
    · subst h; rfl
    · rw [hparse] at hp
      injection hp with hp
      subst hp
      exact absurd hscheme h2
    · subst h; rfl
    · cases e <;> simp_all [Event.isLayout, Event.isVerify]
  · intro checksum he
    rcases Run_trace_mem env d rootfsDir fs _ he with h | h | ⟨⟨url1, hp, _, h2⟩, _⟩ | h | h
    · exact Event.noConfusion h
    · injection h with h1 h2
      exact append_sig_ne _ h1
    · rw [hparse] at hp
      injection hp with hp
      subst hp
      exact absurd hscheme h2
    · exact Event.noConfusion h
    · simp [Event.isLayout] at h
  · intro hdl
    exact Run_direct env d rootfsDir fs url hres hparse (Or.inr hscheme) hdl

/-- Witness of C5: `https` without keys and without the skip flag. -/
theorem c5_https_never_verifies_witness :
    sampleParse (tarball "https://example.org/arch" "2024.01.01" "x86_64")
      = Except.ok ⟨"https"⟩ ∧
    (Run (sampleEnv none (fun _ => none) (false, none) sampleTree)
      (sampleDefinition "2024.01.01" "https://example.org/arch" [] false) "/rootfs" []).err
      ≠ some policyError ∧
    (∀ e ∈ (Run (sampleEnv none (fun _ => none) (false, none) sampleTree)
      (sampleDefinition "2024.01.01" "https://example.org/arch" [] false) "/rootfs" []).trace,
      e.isVerify = false) :=
  have h := c5_https_never_verifies (sampleEnv none (fun _ => none) (false, none) sampleTree)
    (sampleDefinition "2024.01.01" "https://example.org/arch" [] false) "/rootfs" []
    ⟨"https"⟩ rfl rfl rfl
  ⟨rfl, h.1, h.2.1⟩

/-! ## C6: the artifact name and URL -/

/-- C6.  The artifact file name is "archlinux-bootstrap-" ++ r ++ "-" ++ a ++
".tar.gz" and the download URL is b ++ "/" ++ r ++ "/" ++ that name, for every
base URL `b`, release `r` and architecture `a`; they are what `Run` uses: with
`r` the release the run works with, every download of a run fetches that URL
or that URL followed by ".sig", and every extraction reads the file of that
name in the staging directory.  For `https://example.org/arch`, `2024.01.01`
and `x86_64` the URL is the one of the example. -/
theorem c6_artifact_name_and_url {Doc : Type} (env : Env Doc) (d : Definition)
    (rootfsDir : String) (fs : Dir) (b r a : String) :
    fname r a = "archlinux-bootstrap-" ++ r ++ "-" ++ a ++ ".tar.gz" ∧
    tarball b r a = b ++ "/" ++ r ++ "/" ++
      ("archlinux-bootstrap-" ++ r ++ "-" ++ a ++ ".tar.gz") ∧
    (d.Image.Release ≠ "" → (resolveRelease env d).release = d.Image.Release) ∧
    (∀ file checksum, Event.downloadHash file checksum ∈ (Run env d rootfsDir fs).trace →
      file = d.Source.URL ++ "/" ++ (resolveRelease env d).release ++ "/" ++
          ("archlinux-bootstrap-" ++ (resolveRelease env d).release ++ "-" ++
            d.Image.ArchitectureMapped ++ ".tar.gz") ∨
      file = d.Source.URL ++ "/" ++ (resolveRelease env d).release ++ "/" ++
          ("archlinux-bootstrap-" ++ (resolveRelease env d).release ++ "-" ++
            d.Image.ArchitectureMapped ++ ".tar.gz") ++ ".sig") ∧
    (∀ file path b1 b2, Event.unpack file path b1 b2 ∈ (Run env d rootfsDir fs).trace →
      file = filepathJoin env.TempDir
        ("archlinux-bootstrap-" ++ (resolveRelease env d).release ++ "-" ++
          d.Image.ArchitectureMapped ++ ".tar.gz")) ∧
    tarball "https://example.org/arch" "2024.01.01" "x86_64" =
      "https://example.org/arch/2024.01.01/archlinux-bootstrap-2024.01.01-x86_64.tar.gz" := by
  refine ⟨rfl, rfl, ?_, ?_, ?_, by decide⟩
  · intro h
    rw [resolveRelease_configured env d h]
  · intro file checksum he
    rcases Run_trace_mem env d rootfsDir fs _ he with h | h | ⟨_, h | h⟩ | h | h
    · exact Event.noConfusion h
    · injection h with h1 h2
      exact Or.inl h1
    · injection h with h1 h2
      exact Or.inr h1
    · exact Event.noConfusion h
    · exact Event.noConfusion h
    · simp [Event.isLayout] at h
  · intro file path b1 b2 he
    rcases Run_trace_mem env d rootfsDir fs _ he with h | h | ⟨_, h | h⟩ | h | h
    · exact Event.noConfusion h
    · exact Event.noConfusion h
    · exact Event.noConfusion h
    · exact Event.noConfusion h
    · injection h with h1 h2
    · simp [Event.isLayout] at h

/-- Witness of C6: the run of the example downloads the URL of the example. -/
theorem c6_artifact_name_and_url_witness :
    Event.downloadHash
      "https://example.org/arch/2024.01.01/archlinux-bootstrap-2024.01.01-x86_64.tar.gz" "" ∈
      (Run (sampleEnv none (fun _ => none) (true, none) sampleTree)
        (sampleDefinition "2024.01.01" "https://example.org/arch" [] false)
        "/rootfs" []).trace ∧
    ("https://example.org/arch/2024.01.01/archlinux-bootstrap-2024.01.01-x86_64.tar.gz" =
      (sampleDefinition "2024.01.01" "https://example.org/arch" [] false).Source.URL ++ "/" ++
        (resolveRelease (sampleEnv none (fun _ => none) (true, none) sampleTree)
          (sampleDefinition "2024.01.01" "https://example.org/arch" [] false)).release ++ "/" ++
        ("archlinux-bootstrap-" ++
          (resolveRelease (sampleEnv none (fun _ => none) (true, none) sampleTree)
            (sampleDefinition "2024.01.01" "https://example.org/arch" [] false)).release ++
          "-" ++
          (sampleDefinition "2024.01.01" "https://example.org/arch" [] false).Image.ArchitectureMapped
          ++ ".tar.gz") ∨
    "https://example.org/arch/2024.01.01/archlinux-bootstrap-2024.01.01-x86_64.tar.gz" =
      (sampleDefinition "2024.01.01" "https://example.org/arch" [] false).Source.URL ++ "/" ++
        (resolveRelease (sampleEnv none (fun _ => none) (true, none) sampleTree)
          (sampleDefinition "2024.01.01" "https://example.org/arch" [] false)).release ++ "/" ++
        ("archlinux-bootstrap-" ++
          (resolveRelease (sampleEnv none (fun _ => none) (true, none) sampleTree)
            (sampleDefinition "2024.01.01" "https://example.org/arch" [] false)).release ++
          "-" ++
          (sampleDefinition "2024.01.01" "https://example.org/arch" [] false).Image.ArchitectureMapped
          ++ ".tar.gz") ++ ".sig") :=
  ⟨by decide,
    (c6_artifact_name_and_url (sampleEnv none (fun _ => none) (true, none) sampleTree)
      (sampleDefinition "2024.01.01" "https://example.org/arch" [] false) "/rootfs" []
      "" "" "").2.2.2.1 _ "" (by decide)⟩

/-! ## C7: a malformed URL -/

/-- C7 (as amended).  When the release is resolved and the URL parser rejects
the artifact URL, `Run` returns the parser's error, leaves the destination as
it was, and downloads neither the artifact nor the signature.  With a
configured release it makes no call at all; with an empty release its one
call, made before the URL is parsed, is the page fetch of
`getLatestRelease`. -/
theorem c7_malformed_url {Doc : Type} (env : Env Doc) (d : Definition)
    (rootfsDir : String) (fs : Dir) (msg : String)
    (hres : (resolveRelease env d).err = none)
    (hparse : env.Parse (tarball d.Source.URL (resolveRelease env d).release
      d.Image.ArchitectureMapped) = Except.error msg) :
    (Run env d rootfsDir fs).err = some (Error.external msg) ∧
    (Run env d rootfsDir fs).trace =
      (if d.Image.Release = "" then [Event.loadURL downloadPage] else []) ∧
    (∀ e ∈ (Run env d rootfsDir fs).trace, e.isDownload = false) ∧
    (Run env d rootfsDir fs).fs = fs := by
  have ht := resolveRelease_trace env d
  have hrun : Run env d rootfsDir fs =
      ⟨some (Error.external msg), (resolveRelease env d).trace, fs, none⟩ := by
    simp only [Run, hres, hparse]
  rw [hrun]
  refine ⟨rfl, ht, ?_, rfl⟩
  intro e he
  rw [resolveRelease_trace_mem env d e he]
  rfl

/-- Witness of C7: a configured release and a base URL without a scheme before
its colon. -/
theorem c7_malformed_url_witness :
    sampleParse (tarball ":example.org/arch" "2024.01.01" "x86_64")
      = Except.error "missing protocol scheme" ∧
    (Run (sampleEnv none (fun _ => none) (true, none) sampleTree)
      (sampleDefinition "2024.01.01" ":example.org/arch" [] true) "/rootfs" []).err
      = some (Error.external "missing protocol scheme") ∧
    (Run (sampleEnv none (fun _ => none) (true, none) sampleTree)
      (sampleDefinition "2024.01.01" ":example.org/arch" [] true) "/rootfs" []).trace = [] :=
  have h := c7_malformed_url (sampleEnv none (fun _ => none) (true, none) sampleTree)
    (sampleDefinition "2024.01.01" ":example.org/arch" [] true) "/rootfs" []
    "missing protocol scheme" rfl rfl
  ⟨rfl, h.1, h.2.1⟩

/-- Counterexample to C7 as stated: with an empty release and a malformed base
URL, the run fetches the download page before it returns the parser's error,
so the error does not come before any network activity. -/
theorem c7_counterexample :
    sampleParse (tarball ":example.org/arch" "2024.02.01" "x86_64")
      = Except.error "missing protocol scheme" ∧
    (Run (sampleEnv (some ⟨"2024.02.01"⟩) (fun _ => none) (true, none) sampleTree)
      (sampleDefinition "" ":example.org/arch" [] true) "/rootfs" []).err
      = some (Error.external "missing protocol scheme") ∧
    (Run (sampleEnv (some ⟨"2024.02.01"⟩) (fun _ => none) (true, none) sampleTree)
      (sampleDefinition "" ":example.org/arch" [] true) "/rootfs" []).trace
      = [Event.loadURL "https://www.archlinux.org/download/"] ∧
    (Event.loadURL "https://www.archlinux.org/download/").isRequest = true :=
  ⟨rfl, by decide, by decide, rfl⟩

/-! ## C8: the latest release -/

theorem exists_not_space_dropWhile (cs : List Char) :
    (∃ c ∈ cs.dropWhile isSpace, isSpace c = false) ↔ ∃ c ∈ cs, isSpace c = false := by
  induction cs with
  | nil => simp
  | cons x xs ih =>
    cases hx : isSpace x with
    | true =>
      rw [List.dropWhile_cons_of_pos hx, ih]
      constructor
      · rintro ⟨c, hc, h⟩
        exact ⟨c, List.mem_cons_of_mem _ hc, h⟩
      · rintro ⟨c, hc, h⟩
        rcases List.mem_cons.mp hc with rfl | hc
        · rw [hx] at h; exact absurd h (by decide)
        · exact ⟨c, hc, h⟩
    | false =>
      rw [List.dropWhile_cons_of_neg (by simp [hx])]

theorem dropWhile_ne_nil_iff (cs : List Char) :
    cs.dropWhile isSpace ≠ [] ↔ ∃ c ∈ cs, isSpace c = false := by
  rw [Ne, List.dropWhile_eq_nil_iff]
  simp

/-- `TrimSpace` leaves a character exactly when the string has one that is not
white space. -/
theorem TrimSpace_length_pos_iff (s : String) :
    0 < (TrimSpace s).length ↔ ∃ c ∈ s.data, isSpace c = false := by
  have h1 : 0 < (TrimSpace s).length ↔ trimRight (trimLeft s.data) ≠ [] := by
    simp [TrimSpace, String.length, List.length_pos]
  rw [h1, trimRight]
  simp only [ne_eq, List.reverse_eq_nil_iff]
  rw [← ne_eq, dropWhile_ne_nil_iff]
  simp only [List.mem_reverse]
  exact exists_not_space_dropWhile s.data

/-- C8 (as amended).  Whenever `getLatestRelease` returns with a `nil` error,
the page was loaded, the query selected a node, and the returned string is the
text of that node with the surrounding white space stripped; it has length
greater than zero exactly when that text has a character that is not white
space.  Text of white space only gives the empty string with a `nil` error. -/
theorem c8_latest_release {Doc : Type} (env : Env Doc)
    (h : (getLatestRelease env).err = none) :
    ∃ doc node, env.LoadURL downloadPage = Except.ok doc ∧
      env.FindOne doc releaseExpr = some node ∧
      (getLatestRelease env).release = TrimSpace node.Data ∧
      (0 < (getLatestRelease env).release.length ↔
        ∃ c ∈ node.Data.data, isSpace c = false) := by
  unfold getLatestRelease at h ⊢
  cases hl : env.LoadURL downloadPage with
  | error e => simp [hl] at h
  | ok doc =>
    cases hf : env.FindOne doc releaseExpr with
    | none => simp [hl, hf] at h
    | some node =>
      refine ⟨doc, node, rfl, hf, ?_, ?_⟩
      · simp [hf]
      · simp only [hf]
        exact TrimSpace_length_pos_iff node.Data

/-- Witness of C8: the node text `  2024.02.01  ` gives the release
`2024.02.01`. -/
theorem c8_latest_release_witness :
    (getLatestRelease (sampleEnv (some ⟨"  2024.02.01  "⟩) (fun _ => none) (true, none)
      sampleTree)).release = "2024.02.01" ∧
    ∃ doc node,
      (sampleEnv (some ⟨"  2024.02.01  "⟩) (fun _ => none) (true, none) sampleTree).LoadURL
        downloadPage = Except.ok doc ∧
      (sampleEnv (some ⟨"  2024.02.01  "⟩) (fun _ => none) (true, none) sampleTree).FindOne
        doc releaseExpr = some node ∧
      (getLatestRelease (sampleEnv (some ⟨"  2024.02.01  "⟩) (fun _ => none) (true, none)
        sampleTree)).release = TrimSpace node.Data ∧
      (0 < (getLatestRelease (sampleEnv (some ⟨"  2024.02.01  "⟩) (fun _ => none)
          (true, none) sampleTree)).release.length ↔
        ∃ c ∈ node.Data.data, isSpace c = false) :=
  ⟨by decide,
    c8_latest_release (sampleEnv (some ⟨"  2024.02.01  "⟩) (fun _ => none) (true, none)
      sampleTree) rfl⟩

/-- Counterexample to C8 as stated: when the selected text node holds white
space only, `getLatestRelease` returns the empty string with a `nil` error. -/
theorem c8_counterexample :
    (getLatestRelease (sampleEnv (some ⟨" \n\t "⟩) (fun _ => none) (true, none)
      sampleTree)).err = none ∧
    (getLatestRelease (sampleEnv (some ⟨" \n\t "⟩) (fun _ => none) (true, none)
      sampleTree)).release = "" ∧
    (getLatestRelease (sampleEnv (some ⟨" \n\t "⟩) (fun _ => none) (true, none)
      sampleTree)).release.length = 0 :=
  ⟨rfl, by decide, by decide⟩

/-! ## C10: the arguments of the extraction -/

/-- C10 (as amended).  Every invocation of the extraction made by `Run` passes
the staged artifact path `TempDir/fname` and the destination directory, with
the third argument `false` and the fourth argument `false`. -/
theorem c10_unpack_arguments {Doc : Type} (env : Env Doc) (d : Definition)
    (rootfsDir : String) (fs : Dir) (file path : String) (b3 b4 : Bool)
    (h : Event.unpack file path b3 b4 ∈ (Run env d rootfsDir fs).trace) :
    file = filepathJoin env.TempDir
      (fname (resolveRelease env d).release d.Image.ArchitectureMapped) ∧
    path = rootfsDir ∧ b3 = false ∧ b4 = false := by
  rcases Run_trace_mem env d rootfsDir fs _ h with h | h | ⟨_, h | h⟩ | h | h
  · exact Event.noConfusion h
  · exact Event.noConfusion h
  · exact Event.noConfusion h
  · exact Event.noConfusion h
  · injection h with h1 h2 h3 h4
    exact ⟨h1, h2, h3, h4⟩
  · simp [Event.isLayout] at h

/-- Witness of C10: the extraction of a run over `https`. -/
theorem c10_unpack_arguments_witness :
    Event.unpack "/tmp/archlinux-bootstrap-2024.01.01-x86_64.tar.gz" "/rootfs" false false ∈
      (Run (sampleEnv none (fun _ => none) (true, none) sampleTree)
        (sampleDefinition "2024.01.01" "https://example.org/arch" [] false)
        "/rootfs" []).trace ∧
    "/tmp/archlinux-bootstrap-2024.01.01-x86_64.tar.gz" =
      filepathJoin (sampleEnv none (fun _ => none) (true, none) sampleTree).TempDir
        (fname (resolveRelease (sampleEnv none (fun _ => none) (true, none) sampleTree)
          (sampleDefinition "2024.01.01" "https://example.org/arch" [] false)).release
          (sampleDefinition "2024.01.01" "https://example.org/arch" [] false).Image.ArchitectureMapped) :=
  ⟨by decide,
    (c10_unpack_arguments (sampleEnv none (fun _ => none) (true, none) sampleTree)
      (sampleDefinition "2024.01.01" "https://example.org/arch" [] false) "/rootfs" []
      "/tmp/archlinux-bootstrap-2024.01.01-x86_64.tar.gz" "/rootfs" false false
      (by decide)).1⟩

/-- Counterexample to C10 as stated: the extraction of this run is invoked
with the third argument `false`, and with no other arguments. -/
theorem c10_counterexample :
    Event.unpack "/tmp/archlinux-bootstrap-2024.01.01-x86_64.tar.gz" "/rootfs" false false ∈
      (Run (sampleEnv none (fun _ => none) (true, none) sampleTree)
        (sampleDefinition "2024.01.01" "https://example.org/arch" [] false)
        "/rootfs" []).trace ∧
    Event.unpack "/tmp/archlinux-bootstrap-2024.01.01-x86_64.tar.gz" "/rootfs" true false ∉
      (Run (sampleEnv none (fun _ => none) (true, none) sampleTree)
        (sampleDefinition "2024.01.01" "https://example.org/arch" [] false)
        "/rootfs" []).trace :=
  ⟨by decide, by decide⟩

/-! ## Directories: looking up, erasing, renaming -/

theorem lookup_erase (x n : String) (fs : Dir) :
    lookup x (erase n fs) = if x = n then none else lookup x fs := by
  induction fs with
  | nil => simp [erase, lookup]
  | cons p rest ih =>
    obtain ⟨k, v⟩ := p
    unfold erase at ih ⊢
    by_cases hk : k = n
    · subst hk
      simp only [List.filter_cons, ne_eq, not_true_eq_false, decide_False, Bool.false_eq_true,
        ↓reduceIte, ih]
      by_cases hx : x = k
      · simp [hx]
      · have : ¬ k = x := fun h => hx h.symm
        simp [hx, lookup, this]
    · simp only [List.filter_cons, ne_eq, hk, not_false_eq_true, decide_True, ↓reduceIte, lookup,
        ih]
      by_cases hx : k = x
      · subst hx; simp [hk]
      · simp [hx]

theorem lookup_removeChild (x d c : String) (fs : Dir) :
    lookup x (removeChild d c fs) =
      if x = d then (lookup d fs).map (withoutChild c) else lookup x fs := by
  induction fs with
  | nil => simp [removeChild, lookup]
  | cons p rest ih =>
    obtain ⟨k, v⟩ := p
    by_cases hk : k = d
    · subst hk
      cases v with
      | dir es =>
        simp only [removeChild, ↓reduceIte, lookup]
        by_cases hx : k = x
        · subst hx; simp [withoutChild]
        · have : ¬ x = k := fun h => hx h.symm
          simp [hx, this, ih]
      | file y =>
        simp only [removeChild, ↓reduceIte, lookup]
        by_cases hx : k = x
        · subst hx; simp [withoutChild]
        · have : ¬ x = k := fun h => hx h.symm
          simp [hx, this, ih]
    · simp only [removeChild, hk, ↓reduceIte, lookup, ih]
      by_cases hx : k = x
      · subst hx; simp [hk]
      · simp only [hx, ↓reduceIte]

theorem lookupChild_some (d c : String) (fs : Dir) (e : Node)
    (h : lookupChild d c fs = some e) :
    ∃ es, lookup d fs = some (Node.dir es) ∧ lookup c es = some e := by
  unfold lookupChild entriesOf at h
  split at h
  · rename_i es hes
    split at hes
    · rename_i es1 hl
      simp at hes
      subst hes
      exact ⟨es1, hl, h⟩
    · simp at hes
  · simp at h

theorem lookupChild_of_lookup (d c : String) (fs : Dir) (es : Dir)
    (h : lookup d fs = some (Node.dir es)) : lookupChild d c fs = lookup c es := by
  simp [lookupChild, entriesOf, h]

/-- What a successful `Rename` of `fs/d/c` to `fs/c` does: the entry was in
`d`, `c` differs from `d`, the entry is now at `c`, the other entries of the
destination other than `d` are as before, and `d` has lost `c` only. -/
theorem Rename_ok (fs fs1 : Dir) (d c : String) (h : Rename fs d c = Except.ok fs1) :
    c ≠ d ∧
    (∃ e, lookupChild d c fs = some e ∧ lookup c fs1 = some e) ∧
    (∀ x, x ≠ c → x ≠ d → lookup x fs1 = lookup x fs) ∧
    (∀ x, lookupChild d x fs1 = if x = c then none else lookupChild d x fs) := by
  unfold Rename at h
  cases hc : lookupChild d c fs with
  | none =>
    rw [hc] at h
    split at h <;> simp at h
  | some e =>
    obtain ⟨es, hd, hce⟩ := lookupChild_some d c fs e hc
    have hcd : c ≠ d := by
      intro hEq
      subst hEq
      rw [hd, hc] at h
      simp at h
    have hfs1 : fs1 = (c, e) :: erase c (removeChild d c fs) := by
      rw [hc] at h
      split at h
      · simp at h
      · simp only at h
        split at h
        · simp at h
        · injection h with h
          exact h.symm
    subst hfs1
    have hdc : d ≠ c := fun hEq => hcd hEq.symm
    refine ⟨hcd, ⟨e, rfl, by simp [lookup]⟩, ?_, ?_⟩
    · intro x hx hxd
      have : ¬ c = x := fun hEq => hx hEq.symm
      simp [lookup, this, lookup_erase, hx, lookup_removeChild, hxd]
    · intro x
      have hd1 : lookup d ((c, e) :: erase c (removeChild d c fs)) =
          some (Node.dir (erase c es)) := by
        simp [lookup, hcd, lookup_erase, hdc, lookup_removeChild, hd, withoutChild]
      rw [lookupChild_of_lookup d x _ _ hd1, lookupChild_of_lookup d x fs es hd, lookup_erase]

/-- The renaming loop over the entries `names` of the directory `d`: when
every rename succeeds, every name differs from `d`, every entry is in the
destination under its name afterwards, and the entries of the destination
under other names, `d` apart, are as before. -/
theorem renameLoop_ok (rootfsDir d : String) (names : List String) (fs : Dir)
    (h : (renameLoop rootfsDir (names.map (fun n => (d, n))) fs).1 = none) :
    (∀ c ∈ names, c ≠ d ∧ ∃ e, lookupChild d c fs = some e ∧
      lookup c (renameLoop rootfsDir (names.map (fun n => (d, n))) fs).2.2 = some e) ∧
    (∀ x, x ∉ names → x ≠ d →
      lookup x (renameLoop rootfsDir (names.map (fun n => (d, n))) fs).2.2 = lookup x fs) := by
  induction names generalizing fs with
  | nil => simp [renameLoop]
  | cons c rest ih =>
    simp only [List.map_cons, renameLoop] at h ⊢
    cases hr : Rename fs d c with
    | error m => simp [hr] at h
    | ok fs1 =>
      simp only [hr] at h ⊢
      obtain ⟨hcd, ⟨e, he, he1⟩, hframe, hchild⟩ := Rename_ok fs fs1 d c hr
      obtain ⟨ih1, ih2⟩ := ih fs1 h
      have hc_notin : c ∉ rest := by
        intro hmem
        obtain ⟨_, e2, he2, _⟩ := ih1 c hmem
        rw [hchild c] at he2
        simp at he2
      refine ⟨?_, ?_⟩
      · intro x hx
        rcases List.mem_cons.mp hx with rfl | hx
        · refine ⟨hcd, e, he, ?_⟩
          rw [ih2 x hc_notin hcd]
          exact he1
        · obtain ⟨hxd, e2, he2, he3⟩ := ih1 x hx
          refine ⟨hxd, e2, ?_, he3⟩
          rw [hchild x] at he2
          split at he2
          · simp at he2
          · exact he2
      · intro x hx hxd
        have hxc : x ≠ c := fun hEq => hx (hEq ▸ List.mem_cons_self _ _)
        have hxr : x ∉ rest := fun hmem => hx (List.mem_cons_of_mem _ hmem)
        rw [ih2 x hxr hxd]
        exact hframe x hxc hxd

theorem mem_insertSorted (x y : String) (l : List String) :
    y ∈ insertSorted x l ↔ y = x ∨ y ∈ l := by
  induction l with
  | nil => simp [insertSorted]
  | cons z zs ih =>
    unfold insertSorted
    split
    · simp
    · simp only [List.mem_cons, ih]
      tauto

theorem mem_sortStrings (y : String) (l : List String) : y ∈ sortStrings l ↔ y ∈ l := by
  induction l with
  | nil => simp [sortStrings]
  | cons z zs ih =>
    unfold sortStrings at ih ⊢
    simp only [List.foldr_cons, mem_insertSorted, ih, List.mem_cons]

theorem lookup_some_mem (c : String) (es : Dir) (e : Node) (h : lookup c es = some e) :
    (c, e) ∈ es := by
  induction es with
  | nil => simp [lookup] at h
  | cons p rest ih =>
    obtain ⟨k, v⟩ := p
    unfold lookup at h
    split at h
    · rename_i hk
      injection h with h
      subst hk h
      exact List.mem_cons_self _ _
    · exact List.mem_cons_of_mem _ (ih h)

/-! ## Patterns and paths without magic characters -/

theorem Match_star (n : String) : Match "*" n = some (!n.data.contains '/') := by
  rfl

theorem matchNames_star (names : List String)
    (h : ∀ n ∈ names, ∀ c ∈ n.data, c ≠ '/') : matchNames "*" names = some names := by
  induction names with
  | nil => rfl
  | cons n ns ih =>
    have hn : '/' ∉ n.data := fun hc => h n (List.mem_cons_self _ _) '/' hc rfl
    have ih1 := ih (fun m hm => h m (List.mem_cons_of_mem _ hm))
    simp [matchNames, Match_star, hn, ih1]

theorem matchChunk_failed (chunk : List Char)
    (h : ∀ c ∈ chunk, c ≠ '[' ∧ c ≠ '\\') (fuel : Nat) (hf : chunk.length < fuel) :
    matchChunk fuel chunk [] true = some none := by
  induction chunk generalizing fuel with
  | nil =>
    cases fuel with
    | zero => simp at hf
    | succ f => simp [matchChunk]
  | cons c rest ih =>
    cases fuel with
    | zero => simp at hf
    | succ f =>
      have hc := h c (List.mem_cons_self _ _)
      have hrest := ih (fun x hx => h x (List.mem_cons_of_mem _ hx)) f
        (by simp at hf; omega)
      simp only [matchChunk, Bool.true_or, hc.1, ↓reduceIte, hc.2]
      split <;> exact hrest

theorem matchChunk_empty_name (chunk : List Char) (hne : chunk ≠ [])
    (h : ∀ c ∈ chunk, c ≠ '[' ∧ c ≠ '\\') (fuel : Nat) (hf : chunk.length < fuel) :
    matchChunk fuel chunk [] false = some none := by
  cases chunk with
  | nil => exact absurd rfl hne
  | cons c rest =>
    cases fuel with
    | zero => simp at hf
    | succ f =>
      have hc := h c (List.mem_cons_self _ _)
      have hrest := matchChunk_failed rest (fun x hx => h x (List.mem_cons_of_mem _ hx)) f
        (by simp at hf; omega)
      simp only [matchChunk, List.isEmpty_nil, Bool.or_true, hc.1, ↓reduceIte, hc.2]
      split <;> exact hrest

theorem scanSplit_plain (p : List Char)
    (h : ∀ c ∈ p, c ≠ '*' ∧ c ≠ '[' ∧ c ≠ '\\') :
    scanSplit false false (p ++ ['/', '*']) = (p ++ ['/'], ['*']) := by
  induction p with
  | nil => decide
  | cons c rest ih =>
    have hc := h c (List.mem_cons_self _ _)
    have ih1 := ih (fun x hx => h x (List.mem_cons_of_mem _ hx))
    simp only [List.cons_append, scanSplit, hc.2.2, ↓reduceIte, hc.2.1, hc.1, false_and]
    split <;> simp [ih1]

theorem scanChunk_plain (p : List Char)
    (h : ∀ c ∈ p, c ≠ '*' ∧ c ≠ '[' ∧ c ≠ '\\') :
    scanChunk (p ++ ['/', '*']) = (false, p ++ ['/'], ['*']) := by
  have hd : (p ++ ['/', '*']).dropWhile (fun c => decide (c = '*')) = p ++ ['/', '*'] := by
    cases p with
    | nil => decide
    | cons c rest =>
      have hc := h c (List.mem_cons_self _ _)
      simp [List.dropWhile, hc.1]
  have hh : (p ++ ['/', '*']).head? ≠ some '*' := by
    cases p with
    | nil => decide
    | cons c rest =>
      have hc := h c (List.mem_cons_self _ _)
      simp [hc.1]
  unfold scanChunk
  simp only [hd, scanSplit_plain p h, hh, decide_False]

theorem Match_plain_dir (dir : String) (h : ∀ c ∈ dir.data, isMagic c = false) :
    Match (dir ++ "/*") "" = some false := by
  have hp : ∀ c ∈ dir.data, c ≠ '*' ∧ c ≠ '[' ∧ c ≠ '\\' := by
    intro c hc
    have := h c hc
    simp [isMagic] at this
    exact ⟨this.1, this.2.2.1, this.2.2.2⟩
  have hchunk : ∀ c ∈ dir.data ++ ['/'], c ≠ '[' ∧ c ≠ '\\' := by
    intro c hc
    rcases List.mem_append.mp hc with hc | hc
    · exact ⟨(hp c hc).2.1, (hp c hc).2.2⟩
    · simp at hc; subst hc; decide
  have hdata : (dir ++ "/*").data = dir.data ++ ['/', '*'] := by
    simp [String.data_append]
  unfold Match
  rw [hdata]
  show matchLoop ((dir ++ "/*").length + 1) (dir.data ++ ['/', '*']) [] = some false
  unfold matchLoop
  have hne : dir.data ++ ['/', '*'] ≠ [] := by simp
  have hm := matchChunk_empty_name (dir.data ++ ['/']) (by simp) hchunk
    ((dir.data ++ ['/']).length + 1) (by omega)
  simp only [hne, ↓reduceIte, scanChunk_plain dir.data hp, Bool.false_and, Bool.false_eq_true,
    hm]

theorem splitSep_mem (cs : List Char) (s : List Char) (hs : s ∈ splitSep cs) (c : Char)
    (hc : c ∈ s) : c ∈ cs := by
  induction cs generalizing s with
  | nil => simp [splitSep] at hs; subst hs; simp at hc
  | cons x xs ih =>
    unfold splitSep at hs
    split at hs
    · rcases List.mem_cons.mp hs with rfl | hs
      · simp at hc
      · exact List.mem_cons_of_mem _ (ih s hs hc)
    · cases hsp : splitSep xs with
      | nil =>
        rw [hsp] at hs
        simp at hs; subst hs
        simp at hc; subst hc
        exact List.mem_cons_self _ _
      | cons s0 ss =>
        rw [hsp] at hs
        simp only [List.mem_cons] at hs
        rcases hs with rfl | hs
        · rcases List.mem_cons.mp hc with rfl | hc
          · exact List.mem_cons_self _ _
          · exact List.mem_cons_of_mem _ (ih s0 (by rw [hsp]; exact List.mem_cons_self _ _) hc)
        · exact List.mem_cons_of_mem _
            (ih s (by rw [hsp]; exact List.mem_cons_of_mem _ hs) hc)

theorem cleanStep_mem (rooted : Bool) (stack : List (List Char)) (elem e : List Char)
    (h : e ∈ cleanStep rooted stack elem) : e ∈ stack ∨ e = elem := by
  unfold cleanStep at h
  split at h
  · exact Or.inl h
  · split at h
    · cases stack with
      | nil =>
        simp only at h
        split at h
        · simp at h
        · simp at h; exact Or.inr h
      | cons top rest =>
        simp only at h
        split at h
        · rcases List.mem_cons.mp h with h | h
          · exact Or.inr h
          · exact Or.inl h
        · exact Or.inl (List.mem_cons_of_mem _ h)
    · rcases List.mem_cons.mp h with h | h
      · exact Or.inr h
      · exact Or.inl h

theorem foldl_cleanStep_mem (rooted : Bool) (l : List (List Char)) (acc : List (List Char))
    (e : List Char) (h : e ∈ l.foldl (cleanStep rooted) acc) : e ∈ acc ∨ e ∈ l := by
  induction l generalizing acc with
  | nil => exact Or.inl h
  | cons x xs ih =>
    simp only [List.foldl_cons] at h
    rcases ih _ h with h1 | h1
    · rcases cleanStep_mem rooted acc x e h1 with h2 | h2
      · exact Or.inl h2
      · exact Or.inr (h2 ▸ List.mem_cons_self _ _)
    · exact Or.inr (List.mem_cons_of_mem _ h1)

theorem joinElems_mem (es : List (List Char)) (c : Char) (h : c ∈ joinElems es) :
    c = '/' ∨ ∃ e ∈ es, c ∈ e := by
  induction es with
  | nil => simp [joinElems] at h
  | cons e rest ih =>
    cases rest with
    | nil =>
      simp only [joinElems] at h
      exact Or.inr ⟨e, List.mem_cons_self _ _, h⟩
    | cons e2 rest2 =>
      simp only [joinElems, List.mem_append, List.mem_cons] at h
      rcases h with h | h | h
      · exact Or.inr ⟨e, List.mem_cons_self _ _, h⟩
      · exact Or.inl h
      · rcases ih h with h1 | ⟨e3, he3, hc⟩
        · exact Or.inl h1
        · exact Or.inr ⟨e3, List.mem_cons_of_mem _ he3, hc⟩

theorem cleanChars_mem (cs : List Char) (c : Char) (h : c ∈ cleanChars cs) :
    c ∈ cs ∨ c = '/' ∨ c = '.' := by
  have key : ∀ rooted, c ∈ joinElems (cleanElems rooted cs) → c ∈ cs ∨ c = '/' ∨ c = '.' := by
    intro rooted hj
    rcases joinElems_mem _ c hj with h1 | ⟨e, he, hc⟩
    · exact Or.inr (Or.inl h1)
    · unfold cleanElems at he
      rw [List.mem_reverse] at he
      rcases foldl_cleanStep_mem rooted _ _ e he with h2 | h2
      · simp at h2
      · exact Or.inl (splitSep_mem cs e h2 c hc)
  unfold cleanChars at h
  cases cs with
  | nil => simp at h; exact Or.inr (Or.inr h)
  | cons x xs =>
    simp only at h
    split at h
    · rcases List.mem_cons.mp h with h | h
      · exact Or.inr (Or.inl h)
      · exact key _ h
    · split at h
      · simp at h; exact Or.inr (Or.inr h)
      · exact key _ h

theorem filepathJoin_mem (a b : String) (c : Char) (h : c ∈ (filepathJoin a b).data) :
    c ∈ a.data ∨ c ∈ b.data ∨ c = '/' ∨ c = '.' := by
  unfold filepathJoin at h
  split at h
  · split at h
    · simp at h
    · rcases cleanChars_mem _ c h with h1 | h1
      · exact Or.inr (Or.inl h1)
      · exact Or.inr (Or.inr h1)
  · split at h
    · rcases cleanChars_mem _ c h with h1 | h1
      · exact Or.inl h1
      · exact Or.inr (Or.inr h1)
    · rcases cleanChars_mem _ c h with h1 | h1
      · simp only [List.mem_append, List.mem_cons] at h1
        rcases h1 with h1 | h1 | h1
        · exact Or.inl h1
        · exact Or.inr (Or.inr (Or.inl h1))
        · exact Or.inr (Or.inl h1)
      · exact Or.inr (Or.inr h1)

theorem hasMeta_false_iff (s : String) : hasMeta s = false ↔ ∀ c ∈ s.data, isMagic c = false := by
  simp [hasMeta, List.any_eq_false]

theorem nested_not_magic (arch : String) (h : ∀ c ∈ arch.data, isMagic c = false) :
    ∀ c ∈ ("root." ++ arch).data, isMagic c = false := by
  intro c hc
  have hd : ("root." ++ arch).data = "root.".data ++ arch.data := by simp [String.data_append]
  rw [hd] at hc
  rcases List.mem_append.mp hc with hc | hc
  · have hall : ∀ x ∈ "root.".data, isMagic x = false := by decide
    exact hall c hc
  · exact h c hc

theorem joined_not_magic (rootfsDir nested : String) (hroot : hasMeta rootfsDir = false)
    (hn : ∀ c ∈ nested.data, isMagic c = false) :
    ∀ c ∈ (filepathJoin rootfsDir nested).data, isMagic c = false := by
  intro c hc
  rcases filepathJoin_mem _ _ c hc with h | h | h | h
  · exact (hasMeta_false_iff rootfsDir).mp hroot c h
  · exact hn c h
  · subst h; decide
  · subst h; decide

/-- `Glob` at a destination path and a nested name without magic characters
lists the entries of the nested directory. -/
theorem Glob_plain (rootfsDir nested : String) (fs : Dir) (hroot : hasMeta rootfsDir = false)
    (hn : ∀ c ∈ nested.data, isMagic c = false) :
    Glob rootfsDir fs nested = glob fs nested "*" [] := by
  have hj := joined_not_magic rootfsDir nested hroot hn
  unfold Glob
  simp only [Match_plain_dir _ hj, (hasMeta_false_iff _).mpr hj, ↓reduceIte]

/-! ## C9: the layout fix -/

/-- A run that returns no error has extracted the artifact and then completed
the layout fix on what the extraction left. -/
theorem Run_success {Doc : Type} (env : Env Doc) (d : Definition) (rootfsDir : String)
    (fs fs1 : Dir) (hok : (Run env d rootfsDir fs).err = none)
    (hex : (Run env d rootfsDir fs).extracted = some fs1) :
    (flatten rootfsDir d.Image.ArchitectureMapped fs1).1 = none ∧
    (Run env d rootfsDir fs).fs = (flatten rootfsDir d.Image.ArchitectureMapped fs1).2.2 := by
  unfold Run at hok hex ⊢
  cases hres : (resolveRelease env d).err with
  | some err => simp [hres] at hok
  | none =>
    cases hp : env.Parse (tarball d.Source.URL (resolveRelease env d).release
        d.Image.ArchitectureMapped) with
    | error m => simp [hres, hp] at hok
    | ok url =>
      simp only [hres, hp] at hok hex ⊢
      split at hok
      · simp at hok
      · rename_i hgate
        simp only [hgate] at hex ⊢
        cases hd : env.DownloadHash (tarball d.Source.URL (resolveRelease env d).release
            d.Image.ArchitectureMapped) "" with
        | some m => simp [hd] at hok
        | none =>
          simp only [hd] at hok hex ⊢
          cases hv : (verifyStep env d url (resolveRelease env d).release).1 with
          | some ev => simp [hv] at hok
          | none =>
            simp only [hv] at hok hex ⊢
            cases hu : (env.Unpack (filepathJoin env.TempDir
                (fname (resolveRelease env d).release d.Image.ArchitectureMapped))
                rootfsDir false false fs).2 with
            | some m => simp [hu] at hok
            | none =>
              simp only [hu] at hok hex ⊢
              injection hex with hex
              subst hex
              exact ⟨hok, rfl⟩

/-- The layout fix at a destination path and an architecture without magic
characters, on a tree whose nested directory has separator-free entry names:
when it returns no error, the nested directory is gone and each of its entries
is in the destination under its name. -/
theorem flatten_ok (rootfsDir arch : String) (fs1 : Dir)
    (hroot : hasMeta rootfsDir = false)
    (harch : ∀ c ∈ arch.data, isMagic c = false)
    (hnames : ∀ es, entriesOf ("root." ++ arch) fs1 = some es →
      ∀ p ∈ es, ∀ c ∈ p.1.data, c ≠ '/')
    (hok : (flatten rootfsDir arch fs1).1 = none) :
    lookup ("root." ++ arch) (flatten rootfsDir arch fs1).2.2 = none ∧
    ∀ c e, lookupChild ("root." ++ arch) c fs1 = some e →
      lookup c (flatten rootfsDir arch fs1).2.2 = some e := by
  have hg := Glob_plain rootfsDir ("root." ++ arch) fs1 hroot (nested_not_magic arch harch)
  unfold flatten at hok ⊢
  simp only [hg] at hok ⊢
  cases hes : entriesOf ("root." ++ arch) fs1 with
  | none =>
    simp only [glob, hes, renameLoop, RemoveAll, lookup_erase, ↓reduceIte, true_and]
    intro c e hc
    simp [lookupChild, hes] at hc
  | some es =>
    have hm : matchNames "*" (sortStrings (es.map Prod.fst)) =
        some (sortStrings (es.map Prod.fst)) := by
      apply matchNames_star
      intro n hn
      rw [mem_sortStrings] at hn
      obtain ⟨p, hp, rfl⟩ := List.mem_map.mp hn
      exact hnames es hes p hp
    simp only [glob, hes, hm, List.nil_append] at hok ⊢
    cases hr : (renameLoop rootfsDir
        ((sortStrings (es.map Prod.fst)).map (fun n => ("root." ++ arch, n))) fs1).1 with
    | some e1 => simp [hr] at hok
    | none =>
      obtain ⟨h1, _⟩ := renameLoop_ok rootfsDir ("root." ++ arch)
        (sortStrings (es.map Prod.fst)) fs1 hr
      simp only [hr, RemoveAll, lookup_erase, ↓reduceIte, true_and]
      intro c e hc
      have hce : lookup c es = some e := by
        simpa [lookupChild, hes] using hc
      have hmem : c ∈ sortStrings (es.map Prod.fst) := by
        rw [mem_sortStrings]
        exact List.mem_map.mpr ⟨(c, e), lookup_some_mem c es e hce, rfl⟩
      obtain ⟨hcd, e2, he2, he3⟩ := h1 c hmem
      rw [hc] at he2
      injection he2 with he2
      subst he2
      simp [hcd, he3]

/-- The layout fix on literal names.  Let the destination path have no glob
magic character (`*`, `?`, `[`, backslash), let the architecture name one path
element literally (no separator, no magic character), and let the entries of
`root.<architecture>` right after the extraction have separator-free names.
If `Run` returns no error, the destination has no entry named
`root.<architecture>`, and every entry that was in `root.<architecture>` right
after the extraction is an entry of the destination under the same name. -/
theorem layout_fix_literal {Doc : Type} (env : Env Doc) (d : Definition) (rootfsDir : String)
    (fs fs1 : Dir)
    (hroot : hasMeta rootfsDir = false)
    (harch : plainElement d.Image.ArchitectureMapped)
    (hok : (Run env d rootfsDir fs).err = none)
    (hex : (Run env d rootfsDir fs).extracted = some fs1)
    (hnames : ∀ es, entriesOf ("root." ++ d.Image.ArchitectureMapped) fs1 = some es →
      ∀ p ∈ es, ∀ c ∈ p.1.data, c ≠ '/') :
    lookup ("root." ++ d.Image.ArchitectureMapped) (Run env d rootfsDir fs).fs = none ∧
    ∀ c e, lookupChild ("root." ++ d.Image.ArchitectureMapped) c fs1 = some e →
      lookup c (Run env d rootfsDir fs).fs = some e := by
  obtain ⟨hf, hfs⟩ := Run_success env d rootfsDir fs fs1 hok hex
  rw [hfs]
  exact flatten_ok rootfsDir d.Image.ArchitectureMapped fs1 hroot
    (fun c hc => (harch c hc).2) hnames hf

/-- The layout fix on the bootstrap tree of `x86_64` over `https`: after the
run `README` is an entry of the destination and `root.x86_64` is gone. -/
theorem layout_fix_literal_x86_64 :
    (Run (sampleEnv none (fun _ => none) (true, none) sampleTree)
      (sampleDefinition "2024.01.01" "https://example.org/arch" [] false) "/rootfs" []).err
      = none ∧
    lookup "root.x86_64"
      (Run (sampleEnv none (fun _ => none) (true, none) sampleTree)
        (sampleDefinition "2024.01.01" "https://example.org/arch" [] false) "/rootfs" []).fs
      = none ∧
    lookup "README"
      (Run (sampleEnv none (fun _ => none) (true, none) sampleTree)
        (sampleDefinition "2024.01.01" "https://example.org/arch" [] false) "/rootfs" []).fs
      = some (Node.file "bootstrap") :=
  have h := layout_fix_literal (sampleEnv none (fun _ => none) (true, none) sampleTree)
    (sampleDefinition "2024.01.01" "https://example.org/arch" [] false) "/rootfs" [] sampleTree
    (by decide) (by unfold plainElement; decide) (by decide) rfl
    (by
      intro es hes
      have : es = [("etc", Node.dir [("hostname", Node.file "arch")]),
          ("README", Node.file "bootstrap")] := by
        have h1 : entriesOf ("root." ++ (sampleDefinition "2024.01.01"
            "https://example.org/arch" [] false).Image.ArchitectureMapped) sampleTree =
            some [("etc", Node.dir [("hostname", Node.file "arch")]),
              ("README", Node.file "bootstrap")] := rfl
        rw [h1] at hes
        injection hes with hes
        exact hes.symm
      subst this
      decide)
  ⟨by decide, h.1, h.2 "README" (Node.file "bootstrap") rfl⟩

/-- C9 (the code at the failing input).  For the architecture `[x]` the glob
pattern `/rootfs/root.[x]/*` reads `[x]` as a character class and matches
nothing in the directory named `root.[x]`, while the removal reads the same
path literally: no entry is moved, the directory is removed with its entries,
and `Run` returns no error.  The entry `README` of `root.[x]` right after the
extraction is not in the destination afterwards. -/
theorem c9_magic_architecture_loses_entries :
    (Run (sampleEnv none (fun _ => none) (true, none) bracketTree)
      ⟨⟨"2024.01.01", "[x]"⟩, ⟨"https://example.org/arch", [], "", false⟩⟩ "/rootfs" []).err
      = none ∧
    (Run (sampleEnv none (fun _ => none) (true, none) bracketTree)
      ⟨⟨"2024.01.01", "[x]"⟩, ⟨"https://example.org/arch", [], "", false⟩⟩ "/rootfs"
      []).extracted = some bracketTree ∧
    lookupChild ("root." ++ "[x]") "README" bracketTree = some (Node.file "bootstrap") ∧
    lookup "README"
      (Run (sampleEnv none (fun _ => none) (true, none) bracketTree)
        ⟨⟨"2024.01.01", "[x]"⟩, ⟨"https://example.org/arch", [], "", false⟩⟩ "/rootfs" []).fs
      = none :=
  ⟨by decide, rfl, rfl, rfl⟩

/-! ## The fuel of `Match` is never used up -/

theorem getEsc_length (chunk rest : List Char) (r : Char) (h : getEsc chunk = some (r, rest)) :
    rest.length < chunk.length := by
  cases chunk with
  | nil => simp [getEsc] at h
  | cons c tl =>
    by_cases hc : c = '-' ∨ c = ']'
    · simp [getEsc, hc] at h
    · by_cases hb : c = '\\'
      · cases tl with
        | nil => simp [getEsc, hb] at h
        | cons x nchunk =>
          simp only [getEsc, hc, hb, ↓reduceIte] at h
          by_cases hn : nchunk = []
          · simp [hn] at h
          · simp only [hn, ↓reduceIte] at h
            split at h
            · simp at h
            · injection h with h
              injection h with _ h2
              subst h2
              simp; omega
      · simp only [getEsc, hc, hb, ↓reduceIte] at h
        by_cases hn : tl = []
        · simp [hn] at h
        · simp only [hn, ↓reduceIte] at h
          injection h with h
          injection h with _ h2
          subst h2
          simp

theorem classLoop_fuel (r : Char) (f1 f2 : Nat) (chunk : List Char) (m : Bool) (n : Nat)
    (h1 : chunk.length < f1) (h2 : chunk.length < f2) :
    classLoop r f1 chunk m n = classLoop r f2 chunk m n := by
  induction f1 generalizing f2 chunk m n with
  | zero => omega
  | succ g1 ih =>
    cases f2 with
    | zero => omega
    | succ g2 =>
      unfold classLoop
      split
      · rfl
      · split
        · rfl
        · rename_i lo chunk1 hg
          have hl := getEsc_length _ _ _ hg
          split
          · rename_i rest
            split
            · rfl
            · rename_i hi chunk2 hg2
              have hl2 := getEsc_length _ _ _ hg2
              simp at hl2 hl
              exact ih g2 chunk2 _ _ (by omega) (by omega)
          · exact ih g2 chunk1 _ _ (by omega) (by omega)

theorem classLoop_length (r : Char) (fuel : Nat) (chunk : List Char) (m : Bool) (n : Nat)
    (b : Bool) (rest : List Char) (h : classLoop r fuel chunk m n = some (b, rest)) :
    rest.length < chunk.length := by
  induction fuel generalizing chunk m n with
  | zero => simp [classLoop] at h
  | succ g ih =>
    unfold classLoop at h
    split at h
    · split at h
      · injection h with h
        injection h with h1 h2
        subst h2
        simp
      · simp at h
    · split at h
      · simp at h
      · rename_i lo chunk1 hg
        have hl := getEsc_length _ _ _ hg
        split at h
        · split at h
          · simp at h
          · rename_i hi chunk2 hg2
            have hl2 := getEsc_length _ _ _ hg2
            have := ih _ _ _ h
            simp only [List.length_cons] at hl2 hl
            omega
        · have := ih _ _ _ h
          omega

theorem matchChunk_fuel (f1 f2 : Nat) (chunk s : List Char) (b : Bool)
    (h1 : chunk.length < f1) (h2 : chunk.length < f2) :
    matchChunk f1 chunk s b = matchChunk f2 chunk s b := by
  induction f1 generalizing f2 chunk s b with
  | zero => omega
  | succ g1 ih =>
    cases f2 with
    | zero => omega
    | succ g2 =>
      cases chunk with
      | nil => simp [matchChunk]
      | cons c chunk1 =>
        simp only [List.length_cons] at h1 h2
        unfold matchChunk
        simp only
        split
        · split
          · rfl
          · rename_i matched chunk3 hc
            have hl := classLoop_length _ _ _ _ _ _ _ hc
            have hl2 : chunk3.length < chunk1.length + 1 := by
              split at hl
              · have := List.length_tail chunk1
                omega
              · omega
            exact ih g2 chunk3 _ _ (by omega) (by omega)
        · split
          · split
            · exact ih g2 chunk1 _ _ (by omega) (by omega)
            · exact ih g2 chunk1 _ _ (by omega) (by omega)
          · split
            · rfl
            · rename_i x chunk2 hm
              have hl : chunk2.length ≤ chunk1.length := by
                split at hm
                · subst hm; simp
                · injection hm with hm1 hm2
                  subst hm2
                  exact Nat.le_refl _
              split
              · exact ih g2 chunk2 _ _ (by omega) (by omega)
              · exact ih g2 chunk2 _ _ (by omega) (by omega)

theorem scanSplit_length (inrange skip : Bool) (p : List Char) :
    (scanSplit inrange skip p).1.length + (scanSplit inrange skip p).2.length = p.length := by
  induction p generalizing inrange skip with
  | nil => simp [scanSplit]
  | cons c rest ih =>
    cases skip with
    | true =>
      simp only [scanSplit, List.length_cons]
      have := ih inrange false
      omega
    | false =>
      simp only [scanSplit]
      split
      · have := ih inrange true
        simp only [List.length_cons]; omega
      · split
        · have := ih true false
          simp only [List.length_cons]; omega
        · split
          · have := ih false false
            simp only [List.length_cons]; omega
          · split
            · simp
            · have := ih inrange false
              simp only [List.length_cons]; omega

theorem scanSplit_chunk_ne_nil (c : Char) (rest : List Char) (hc : c ≠ '*') :
    (scanSplit false false (c :: rest)).1 ≠ [] := by
  simp only [scanSplit]
  split
  · simp
  · split
    · simp
    · split
      · simp
      · split
        · rename_i h
          exact absurd h.1 hc
        · simp

theorem scanChunk_length (pattern : List Char) (hne : pattern ≠ []) :
    (scanChunk pattern).2.2.length < pattern.length := by
  unfold scanChunk
  simp only
  have hsum := scanSplit_length false false (pattern.dropWhile (fun c => decide (c = '*')))
  have hdrop : (pattern.dropWhile (fun c => decide (c = '*'))).length ≤ pattern.length :=
    (List.dropWhile_sublist _).length_le
  cases pattern with
  | nil => exact absurd rfl hne
  | cons c rest =>
    by_cases hc : c = '*'
    · have hd : ((c :: rest).dropWhile (fun c => decide (c = '*'))).length ≤ rest.length := by
        rw [List.dropWhile_cons_of_pos (by simp [hc])]
        exact (List.dropWhile_sublist _).length_le
      simp only [List.length_cons]
      omega
    · have hd : (c :: rest).dropWhile (fun c => decide (c = '*')) = c :: rest := by
        rw [List.dropWhile_cons_of_neg (by simp [hc])]
      rw [hd] at hsum ⊢
      have hne1 := scanSplit_chunk_ne_nil c rest hc
      have : 0 < (scanSplit false false (c :: rest)).1.length := List.length_pos.mpr hne1
      omega

theorem matchLoop_fuel (f1 f2 : Nat) (pattern name : List Char)
    (h1 : pattern.length < f1) (h2 : pattern.length < f2) :
    matchLoop f1 pattern name = matchLoop f2 pattern name := by
  induction f1 generalizing f2 pattern name with
  | zero => omega
  | succ g1 ih =>
    cases f2 with
    | zero => omega
    | succ g2 =>
      unfold matchLoop
      split
      · rfl
      · rename_i hne
        have hl := scanChunk_length pattern hne
        have step : ∀ t, matchLoop g1 (scanChunk pattern).2.2 t =
            matchLoop g2 (scanChunk pattern).2.2 t :=
          fun t => ih g2 _ t (by omega) (by omega)
        simp only [step]

/-- The fuel `Match` starts its loop with is enough: more fuel gives the same
answer, so the answer never comes from the fuel running out. -/
theorem Match_fuel (pattern name : String) (extra : Nat) :
    matchLoop (pattern.length + 1 + extra) pattern.data name.data = Match pattern name := by
  have hlen : pattern.length = pattern.data.length := rfl
  unfold Match
  exact matchLoop_fuel _ _ _ _ (by omega) (by omega)

end ArchLinuxHTTP
